import Mathlib

/-!
Verification of the streaming decision-tree engine of `river/tree/_base_tree.py`
(`DecisionTree`): the Hoeffding bound helper, the memory-estimation and
memory-enforcement passes, and the leaf activation/deactivation lifecycle.

Modelling conventions.
* Python floats (size estimates, byte budget, overhead fraction) are embedded as
  exact rationals `ℚ`; the real-valued Hoeffding bound is embedded over `ℝ` with
  the `math` domain errors (`ValueError`, `ZeroDivisionError`) made explicit as
  `Option`.
* `max_depth`, which the constructor sets to `math.inf` when absent, is
  `WithTop ℤ`.
* Object references are replaced by access paths from the root: a `FoundNode`
  `(node, parent, parent_branch)` triple is embedded as the pair of the branch
  path from the root to the node together with the node value; `parent is None`
  corresponds to the empty path, and `parent.set_child(parent_branch, x)`
  becomes a functional replacement at that path.
* The node classes live in `river/tree/_nodes.py`, which is not part of the
  sources here; the node data model is modelled from the spec (§2, §3) where
  marked.
-/

namespace River

/-- A reachable tree node: either a learning node (leaf) or a split node.
Modelled from the spec: "Node (abstract): either a Split Node (internal, routes
an instance to one child) or a Learning Node (leaf, accumulates statistics). A
Learning Node is further tagged Active or Inactive." The leaf's collaborator
statistics object is abstracted to an integer seed `stats`, and a split node's
conditional test and `target_stats` (collaborator-owned, out of scope per spec
§1) are omitted because no embedded operation reads them. `depth` is the stored
depth attribute. -/
inductive Node where
  | leaf (is_active : Bool) (stats : ℤ) (depth : ℤ)
  | split (depth : ℤ) (children : List Node)
deriving Repr

/-- The stored statistics seed of a node (`node.stats`; junk value on splits,
which have no `stats` attribute read by the embedded code). -/
def Node.statsOf : Node → ℤ
  | Node.leaf _ s _ => s
  | Node.split _ _ => 0

/-- The stored `depth` attribute of a node. -/
def Node.depthOf : Node → ℤ
  | Node.leaf _ _ d => d
  | Node.split d _ => d

/-- `node.is_leaf()`: learning nodes are leaves, split nodes are not. -/
def Node.isLeafNode : Node → Bool
  | Node.leaf _ _ _ => true
  | Node.split _ _ => false

/-- `isinstance(node, ActiveLeaf)`. -/
def Node.isActiveLeaf : Node → Bool
  | Node.leaf a _ _ => a
  | Node.split _ _ => false

/-- `isinstance(node, InactiveLeaf)`. -/
def Node.isInactiveLeaf : Node → Bool
  | Node.leaf a _ _ => !a
  | Node.split _ _ => false

/-- Modelled from the spec: `calculate_promise()` is the collaborator-defined
"scalar ranking future split value" computed from a learning node's statistics
(spec §3, Glossary); we take the abstracted statistics seed itself as that
scalar, so an arbitrary promise assignment is representable. -/
def Node.calculate_promise : Node → ℤ
  | Node.leaf _ s _ => s
  | Node.split _ _ => 0

/-- Replace the `depth` attribute (`node.depth = d`). -/
def Node.withDepth : Node → ℤ → Node
  | Node.leaf a s _, d => Node.leaf a s d
  | Node.split _ cs, d => Node.split d cs

/-- The engine state: the `DecisionTree` attributes read or written by the
embedded operations (`__init__`, lines 57-77 of `_base_tree.py`). Fields not
touched by any embedded operation (`binary_split`, `memory_estimate_period`,
`remove_poor_atts`, `merit_preprune`, `_train_weight_seen_by_model`, the MB
figure `_max_size` behind `_max_byte_size`) are omitted. -/
structure TreeState where
  max_depth : WithTop ℤ
  stop_mem_management : Bool
  max_byte_size : ℚ
  tree_root : Option Node
  n_decision_nodes : ℤ
  n_active_leaves : ℤ
  n_inactive_leaves : ℤ
  inactive_leaf_size_estimate : ℚ
  active_leaf_size_estimate : ℚ
  size_estimate_overhead_fraction : ℚ
  growth_allowed : Bool
deriving Repr

/-- A found learning node: the branch path from the root paired with the node
value. This embeds the source's `FoundNode(node, parent, parent_branch)`
triple: `parent` and `parent_branch` are recoverable from the path, and
`parent is None` corresponds to the empty path. -/
abbrev FoundNode := List ℕ × Node

mutual

/-- `DecisionTree.__find_learning_nodes` started at a (non-`None`) node:
append the node itself when it is a learning node, and recurse into the
children of a split node in branch order. The accumulating `found` list and
the contextual `(parent, parent_branch)` arguments become the returned list
and the path prefixes. -/
def find_learning_nodes_from : Node → List FoundNode
  | Node.leaf a s d => [([], Node.leaf a s d)]
  | Node.split _ cs => find_learning_nodes_children cs 0

/-- The `for i in range(split_node.n_children)` recursion of
`__find_learning_nodes`, with `i` the branch index of the head child. -/
def find_learning_nodes_children : List Node → ℕ → List FoundNode
  | [], _ => []
  | c :: rest, i =>
      (find_learning_nodes_from c).map (fun e => (i :: e.1, e.2))
        ++ find_learning_nodes_children rest (i + 1)

end

/-- `DecisionTree._find_learning_nodes`: traversal from `self._tree_root`,
which may be `None`. -/
def find_learning_nodes : Option Node → List FoundNode
  | none => []
  | some r => find_learning_nodes_from r

/-- Functional form of `parent.set_child(parent_branch, m)` for a parent
addressed by a path: walk the path and replace the addressed child. Out-of-tree
paths (never produced by the traversal) leave the tree unchanged. -/
def set_child_at : List ℕ → Node → Node → Node
  | [], _, m => m
  | i :: rest, Node.split d cs, m =>
      match cs.get? i with
      | some c => Node.split d (cs.set i (set_child_at rest c m))
      | none => Node.split d cs
  | _ :: _, Node.leaf a s d, _ => Node.leaf a s d

/-- The splice step shared by `_deactivate_leaf` and `_activate_leaf`:
`if parent is None: self._tree_root = new_leaf else:
parent.set_child(parent_branch, new_leaf)`. -/
def replace_root : Option Node → List ℕ → Node → Option Node
  | _, [], m => some m
  | some r, p, m => some (set_child_at p r m)
  | none, _ :: _, _ => none

/-- Modelled from the spec: the abstract node factory `_new_learning_node`
(spec §6): "must accept `(initial_stats, parent, is_active)` and return a
concrete Learning Node whose `stats` are seeded appropriately from
`initial_stats`/`parent`"; per spec §3 the freshly built node carries a
"naively-copied" depth one below the node passed as `parent`, which the caller
then decrements. -/
def new_learning_node (initial_stats : ℤ) (parent : Node) (is_active : Bool) : Node :=
  Node.leaf is_active initial_stats (parent.depthOf + 1)

/-- `DecisionTree._deactivate_leaf`: build the inactive replacement from the
node's stats (the deactivated node is passed as the factory's `parent`),
decrement its depth, splice it in, and move one count from active to
inactive. -/
def deactivate_leaf (s : TreeState) (to_deactivate : Node) (path : List ℕ) : TreeState :=
  let new_leaf0 := new_learning_node to_deactivate.statsOf to_deactivate false
  let new_leaf := new_leaf0.withDepth (new_leaf0.depthOf - 1)
  { s with
    tree_root := replace_root s.tree_root path new_leaf
    n_active_leaves := s.n_active_leaves - 1
    n_inactive_leaves := s.n_inactive_leaves + 1 }

/-- `DecisionTree._activate_leaf`: symmetric to `deactivate_leaf`, with the
factory's `is_active` left at its default `True`. -/
def activate_leaf (s : TreeState) (to_activate : Node) (path : List ℕ) : TreeState :=
  let new_leaf0 := new_learning_node to_activate.statsOf to_activate true
  let new_leaf := new_leaf0.withDepth (new_leaf0.depthOf - 1)
  { s with
    tree_root := replace_root s.tree_root path new_leaf
    n_active_leaves := s.n_active_leaves + 1
    n_inactive_leaves := s.n_inactive_leaves - 1 }

/-- Modelled from the spec: the guard `isinstance(cur_node, ActiveLeaf)` of
`_deactivate_all_leaves`, where `cur_node` ranges over the `FoundNode`
wrappers returned by `_find_learning_nodes`, not over the wrapped nodes. Per
spec §3 a Found-Node is "a transient (node, parent, parent-branch-index)
triple", an entity distinct from the node classes, so the wrapper is never an
instance of the leaf class and the test is constantly false. -/
def found_node_is_active_leaf_instance (_f : FoundNode) : Bool := false

/-- The `for cur_node in learning_nodes` loop body of
`_deactivate_all_leaves`. -/
def deactivate_all_leaves_loop : TreeState → List FoundNode → TreeState
  | s, [] => s
  | s, f :: rest =>
      deactivate_all_leaves_loop
        (if found_node_is_active_leaf_instance f then deactivate_leaf s f.2 f.1 else s)
        rest

/-- `DecisionTree._deactivate_all_leaves` (lines 273-278). -/
def deactivate_all_leaves (s : TreeState) : TreeState :=
  deactivate_all_leaves_loop s (find_learning_nodes s.tree_root)

/-- The `tree_size` computed at the top of `_enforce_size_limit` (lines
218-220): `(self._active_leaf_size_estimate + self._n_inactive_leaves *
self._inactive_leaf_size_estimate) * self._size_estimate_overhead_fraction`.
Note the active term is the bare per-leaf estimate, not multiplied by
`_n_active_leaves`. -/
def tree_size_check (s : TreeState) : ℚ :=
  (s.active_leaf_size_estimate
      + (s.n_inactive_leaves : ℚ) * s.inactive_leaf_size_estimate)
    * s.size_estimate_overhead_fraction

/-- The estimated tree size as the spec's words describe it: the linear model
`n_active_leaves × active_estimate + n_inactive_leaves × inactive_estimate`
weighted by the overhead fraction, "the active-size contribution ... symmetric
to the inactive contribution". Stated for comparison with `tree_size_check`,
the quantity the source actually computes. -/
def spec_tree_size (s : TreeState) : ℚ :=
  ((s.n_active_leaves : ℚ) * s.active_leaf_size_estimate
      + (s.n_inactive_leaves : ℚ) * s.inactive_leaf_size_estimate)
    * s.size_estimate_overhead_fraction

/-- The sort key comparison of `learning_nodes.sort(key=lambda n:
n.node.calculate_promise())`: ascending promise, realised by the stable
`mergeSort`, mirroring Python's stable `list.sort`. -/
def promise_le (a b : FoundNode) : Bool :=
  decide (a.2.calculate_promise ≤ b.2.calculate_promise)

/-- The `while max_active < len(learning_nodes)` scan of `_enforce_size_limit`
(lines 227-234), at current count `m`: tentatively grow to `m + 1`, and stop
one short of the first count whose projected weighted size exceeds the
budget. -/
def scan_loop (total : ℕ) (a i ov budget : ℚ) (m : ℕ) : ℕ :=
  if h : m < total then
    if budget < (((m + 1 : ℕ) : ℚ) * a + ((total - (m + 1) : ℕ) : ℚ) * i) * ov then m
    else scan_loop total a i ov budget (m + 1)
  else m
termination_by total - m

/-- The `max_active` value the greedy scan leaves behind, starting from 0. -/
def max_active_scan (total : ℕ) (a i ov budget : ℚ) : ℕ :=
  scan_loop total a i ov budget 0

/-- The `for i in range(cutoff)` deactivation loop of `_enforce_size_limit`
(lines 236-240), run on the first `cutoff` entries of the sorted list. -/
def deactivation_loop : TreeState → List FoundNode → TreeState
  | s, [] => s
  | s, f :: rest =>
      deactivation_loop
        (if f.2.isActiveLeaf then deactivate_leaf s f.2 f.1 else s) rest

/-- The `for i in range(cutoff, len(learning_nodes))` activation loop of
`_enforce_size_limit` (lines 241-245), run on the entries from `cutoff` on:
reactivate inactive leaves strictly shallower than `max_depth`. -/
def activation_loop : TreeState → List FoundNode → TreeState
  | s, [] => s
  | s, f :: rest =>
      activation_loop
        (if f.2.isInactiveLeaf = true ∧ (f.2.depthOf : WithTop ℤ) < s.max_depth
         then activate_leaf s f.2 f.1 else s) rest

/-- The gather-sort-scan-toggle part of `_enforce_size_limit` (lines 225-245),
reached whenever the early `stop_mem_management` return does not fire. -/
def enforce_scan (s : TreeState) : TreeState :=
  let ns := (find_learning_nodes s.tree_root).mergeSort promise_le
  let max_active := max_active_scan ns.length s.active_leaf_size_estimate
    s.inactive_leaf_size_estimate s.size_estimate_overhead_fraction s.max_byte_size
  let cutoff := ns.length - max_active
  activation_loop (deactivation_loop s (ns.take cutoff)) (ns.drop cutoff)

/-- `DecisionTree._enforce_size_limit` (lines 216-245). The early branch
(lines 221-224) disables growth and returns only when some leaf is inactive or
the estimated size exceeds the budget *and* `stop_mem_management` is set; in
every other case control falls through to the scan. -/
def enforce_size_limit (s : TreeState) : TreeState :=
  if 0 < s.n_inactive_leaves ∨ s.max_byte_size < tree_size_check s then
    if s.stop_mem_management then { s with growth_allowed := false }
    else enforce_scan s
  else enforce_scan s

/-- Checked division: Python raises `ZeroDivisionError` on a zero divisor. -/
def checked_div {α : Type} [DivisionRing α] [DecidableEq α] (a b : α) : Option α :=
  if b = 0 then none else some (a / b)

/-- The accumulation loop of `_estimate_model_size` (lines 253-259): skip
found nodes that are not leaves (defensive check), and add the measured byte
size of each leaf to the active or inactive total by mode. `measure` is the
external `calculate_object_size` collaborator. -/
def size_totals (measure : Node → ℚ) : List FoundNode → ℚ × ℚ → ℚ × ℚ
  | [], t => t
  | f :: rest, t =>
      size_totals measure rest
        (if f.2.isLeafNode = false then t
         else if f.2.isActiveLeaf then (t.1 + measure f.2, t.2)
         else (t.1, t.2 + measure f.2))

/-- The per-class average-size update of `_estimate_model_size` (lines
260-264): a class with positive measured total gets `total / count`, a class
with no measured bytes keeps its previous estimate. The division is Python
float division, so a zero count with a positive total raises. -/
def updated_estimate (total : ℚ) (count : ℤ) (old : ℚ) : Option ℚ :=
  if 0 < total then checked_div total (count : ℚ) else some old

/-- `DecisionTree._estimate_model_size` (lines 247-271). `measure` is the
external `calculate_object_size` collaborator applied to nodes and
`self_size` its value on the whole engine (`calculate_object_size(self)`).
Returns `none` when a `ZeroDivisionError` escapes — in particular on line 269,
where `actual_model_size / estimated_model_size` has no zero-divisor guard. -/
def estimate_model_size (measure : Node → ℚ) (self_size : ℚ) (s : TreeState) :
    Option TreeState :=
  let ns := find_learning_nodes s.tree_root
  let totals := size_totals measure ns (0, 0)
  (updated_estimate totals.1 s.n_active_leaves s.active_leaf_size_estimate).bind fun aEst =>
  (updated_estimate totals.2 s.n_inactive_leaves s.inactive_leaf_size_estimate).bind fun iEst =>
  let s1 := { s with active_leaf_size_estimate := aEst, inactive_leaf_size_estimate := iEst }
  let estimated := (s1.n_active_leaves : ℚ) * aEst + (s1.n_inactive_leaves : ℚ) * iEst
  (checked_div self_size estimated).bind fun ov =>
  let s2 := { s1 with size_estimate_overhead_fraction := ov }
  some (if s2.max_byte_size < self_size then enforce_size_limit s2 else s2)

/-- The `estimated_model_size` of lines 266-268, after the estimate updates
succeed: the linear model the overhead division divides by. -/
def estimated_model_size (s : TreeState) (aEst iEst : ℚ) : ℚ :=
  (s.n_active_leaves : ℚ) * aEst + (s.n_inactive_leaves : ℚ) * iEst

/-- Checked real logarithm: `math.log` raises `ValueError` outside `(0, ∞)`. -/
noncomputable def checked_log (x : ℝ) : Option ℝ :=
  if 0 < x then some (Real.log x) else none

/-- Checked real square root: `math.sqrt` raises `ValueError` on negative
input. -/
noncomputable def checked_sqrt (x : ℝ) : Option ℝ :=
  if 0 ≤ x then some (Real.sqrt x) else none

/-- `DecisionTree._hoeffding_bound` (line 108):
`math.sqrt((range_val * range_val * math.log(1. / confidence)) / (2. * n))`,
with Python's float arithmetic idealised over `ℝ` and the `math` domain
errors explicit. -/
noncomputable def hoeffding_bound (range_val confidence n : ℝ) : Option ℝ :=
  (checked_div 1 confidence).bind fun inv =>
  (checked_log inv).bind fun lg =>
  (checked_div (range_val * range_val * lg) (2 * n)).bind fun q =>
  checked_sqrt q

/-- The closed-form value `sqrt((R² · ln(1/δ)) / (2n))` the bound returns on
its valid domain. -/
noncomputable def hoeffding_val (range_val confidence n : ℝ) : ℝ :=
  Real.sqrt ((range_val * range_val * Real.log (1 / confidence)) / (2 * n))

/-- Pointwise update of a found-node list: replace the node stored at path `p`
by `m`, leave every other entry alone. This is how an in-place
`set_child`/root splice acts on the traversal's output. -/
def upd (p : List ℕ) (m : Node) (e : FoundNode) : FoundNode :=
  if e.1 = p then (p, m) else e

/-- The leaf the deactivation branch of the enforcement pass leaves in a found
slot: an active leaf is replaced by its inactive copy at the same depth, any
other node is untouched. -/
def deact_step (n : Node) : Node :=
  if n.isActiveLeaf then Node.leaf false n.statsOf n.depthOf else n

/-- The leaf the activation branch of the enforcement pass leaves in a found
slot: an inactive leaf strictly shallower than `max_depth` is replaced by its
active copy at the same depth, any other node is untouched. -/
def act_step (maxD : WithTop ℤ) (n : Node) : Node :=
  if n.isInactiveLeaf = true ∧ (n.depthOf : WithTop ℤ) < maxD
  then Node.leaf true n.statsOf n.depthOf else n

/-- The promise-sorted found-node list of the enforcement pass. -/
def sorted_found (s : TreeState) : List FoundNode :=
  (find_learning_nodes s.tree_root).mergeSort promise_le

/-- The `max_active` the enforcement pass's scan settles on. -/
def scan_max_active (s : TreeState) : ℕ :=
  max_active_scan (sorted_found s).length s.active_leaf_size_estimate
    s.inactive_leaf_size_estimate s.size_estimate_overhead_fraction s.max_byte_size

/-- The `cutoff` of the enforcement pass: sorted positions below it are
deactivation candidates, positions at or above it activation candidates. -/
def scan_cutoff (s : TreeState) : ℕ :=
  (sorted_found s).length - scan_max_active s

/-- How one enforcement pass transforms the entry of a single found slot:
slots whose path sorts below the cutoff get `deact_step`, the remaining slots
get `act_step`. -/
def enforce_entry_step (s : TreeState) (e : FoundNode) : FoundNode :=
  if e.1 ∈ ((sorted_found s).take (scan_cutoff s)).map Prod.fst then
    (e.1, deact_step e.2)
  else if e.1 ∈ ((sorted_found s).drop (scan_cutoff s)).map Prod.fst then
    (e.1, act_step s.max_depth e.2)
  else e

/-- Number of active leaves reachable from the root. -/
def active_leaf_count (root : Option Node) : ℕ :=
  (find_learning_nodes root).countP (fun f => f.2.isActiveLeaf)

/-- Number of inactive leaves reachable from the root. -/
def inactive_leaf_count (root : Option Node) : ℕ :=
  (find_learning_nodes root).countP (fun f => f.2.isInactiveLeaf)

/-- Number of leaves reachable from the root. -/
def leaf_count (root : Option Node) : ℕ :=
  (find_learning_nodes root).length

/-- The engine's leaf counters agree with the tree they describe (this holds
in every reachable engine state; spec §3 invariants). -/
def counters_consistent (s : TreeState) : Prop :=
  s.n_active_leaves = (active_leaf_count s.tree_root : ℤ)
    ∧ s.n_inactive_leaves = (inactive_leaf_count s.tree_root : ℤ)

/-- A single-leaf lifecycle transition: `_deactivate_leaf` or `_activate_leaf`
aimed at a found slot. -/
inductive LeafToggle where
  | deactivate (f : FoundNode)
  | activate (f : FoundNode)

/-- Run one lifecycle transition. -/
def apply_toggle (s : TreeState) : LeafToggle → TreeState
  | LeafToggle.deactivate f => deactivate_leaf s f.2 f.1
  | LeafToggle.activate f => activate_leaf s f.2 f.1

/-- Run a sequence of lifecycle transitions in order. -/
def apply_toggles : TreeState → List LeafToggle → TreeState
  | s, [] => s
  | s, t :: ts => apply_toggles (apply_toggle s t) ts

/-- A transition is valid in a state when it is aimed at a leaf the traversal
actually finds there, and the leaf's mode matches the transition (the engine
only ever calls `_deactivate_leaf` on active leaves and `_activate_leaf` on
inactive ones). -/
def valid_toggle (s : TreeState) : LeafToggle → Prop
  | LeafToggle.deactivate f =>
      f ∈ find_learning_nodes s.tree_root ∧ f.2.isActiveLeaf = true
  | LeafToggle.activate f =>
      f ∈ find_learning_nodes s.tree_root ∧ f.2.isInactiveLeaf = true

/-- A sequence of transitions each valid in the state reached so far. -/
inductive valid_toggles : TreeState → List LeafToggle → Prop where
  | nil (s : TreeState) : valid_toggles s []
  | cons (s : TreeState) (t : LeafToggle) (ts : List LeafToggle) :
      valid_toggle s t → valid_toggles (apply_toggle s t) ts →
      valid_toggles s (t :: ts)

/-- A two-active-leaf tree under a tight budget with `stop_mem_management`
set: the state used to exercise the enforcement pass's early branch. -/
def two_leaf_state : TreeState where
  max_depth := ⊤
  stop_mem_management := true
  max_byte_size := 1
  tree_root := some (Node.split 0 [Node.leaf true 0 1, Node.leaf true 1 1])
  n_decision_nodes := 1
  n_active_leaves := 2
  n_inactive_leaves := 0
  inactive_leaf_size_estimate := 0
  active_leaf_size_estimate := 1
  size_estimate_overhead_fraction := 1
  growth_allowed := true

/-- A tree that is a single active root leaf, with memory management left
on. -/
def lone_leaf_state : TreeState where
  max_depth := ⊤
  stop_mem_management := false
  max_byte_size := 1
  tree_root := some (Node.leaf true 0 0)
  n_decision_nodes := 0
  n_active_leaves := 1
  n_inactive_leaves := 0
  inactive_leaf_size_estimate := 0
  active_leaf_size_estimate := 0
  size_estimate_overhead_fraction := 1
  growth_allowed := true

/-- A tree that is a single inactive root leaf, with `stop_mem_management`
set. -/
def inactive_leaf_state : TreeState where
  max_depth := ⊤
  stop_mem_management := true
  max_byte_size := 1
  tree_root := some (Node.leaf false 0 0)
  n_decision_nodes := 0
  n_active_leaves := 0
  n_inactive_leaves := 1
  inactive_leaf_size_estimate := 0
  active_leaf_size_estimate := 0
  size_estimate_overhead_fraction := 1
  growth_allowed := true

/-- A tree with an inactive leaf sitting exactly at `max_depth = 1` next to an
active sibling, with a budget loose enough to allow reactivation. -/
def deep_inactive_state : TreeState where
  max_depth := (1 : ℤ)
  stop_mem_management := false
  max_byte_size := 100
  tree_root := some (Node.split 0 [Node.leaf false 5 1, Node.leaf true 0 1])
  n_decision_nodes := 1
  n_active_leaves := 1
  n_inactive_leaves := 1
  inactive_leaf_size_estimate := 0
  active_leaf_size_estimate := 0
  size_estimate_overhead_fraction := 1
  growth_allowed := true

/-- The freshly constructed engine: no root, zero counters, both per-leaf size
estimates at their initial `0.0` (`__init__`, lines 69-75). -/
def empty_state : TreeState where
  max_depth := ⊤
  stop_mem_management := false
  max_byte_size := 100 * 2 ^ 20
  tree_root := none
  n_decision_nodes := 0
  n_active_leaves := 0
  n_inactive_leaves := 0
  inactive_leaf_size_estimate := 0
  active_leaf_size_estimate := 0
  size_estimate_overhead_fraction := 1
  growth_allowed := true

end River

namespace River

theorem found_leaf_children (cs0 : List Node) (k0 : ℕ) :
    ∀ e ∈ find_learning_nodes_children cs0 k0, e.2.isLeafNode = true := by
  refine find_learning_nodes_children.induct
    (fun n => ∀ e ∈ find_learning_nodes_from n, e.2.isLeafNode = true)
    (fun cs k => ∀ e ∈ find_learning_nodes_children cs k, e.2.isLeafNode = true)
    ?_ ?_ ?_ ?_ cs0 k0
  · intro a s d e he
    simp only [find_learning_nodes_from, List.mem_singleton] at he
    simp [he, Node.isLeafNode]
  · intro d cs ih e he
    simp only [find_learning_nodes_from] at he
    exact ih e he
  · intro k e he
    simp [find_learning_nodes_children] at he
  · intro c rest i ih1 ih2 e he
    simp only [find_learning_nodes_children, List.mem_append, List.mem_map] at he
    rcases he with ⟨a, ha, rfl⟩ | h
    · exact ih1 a ha
    · exact ih2 e h

theorem found_leaf (n : Node) :
    ∀ e ∈ find_learning_nodes_from n, e.2.isLeafNode = true := by
  cases n with
  | leaf a s d =>
      intro e he
      simp only [find_learning_nodes_from, List.mem_singleton] at he
      simp [he, Node.isLeafNode]
  | split d cs =>
      intro e he
      exact found_leaf_children cs 0 e (by simpa [find_learning_nodes_from] using he)

theorem found_head (cs : List Node) (k : ℕ) :
    ∀ e ∈ find_learning_nodes_children cs k, ∃ j t, e.1 = j :: t ∧ k ≤ j := by
  induction cs generalizing k with
  | nil => intro e he; simp [find_learning_nodes_children] at he
  | cons c rest ih =>
      intro e he
      simp only [find_learning_nodes_children, List.mem_append, List.mem_map] at he
      rcases he with ⟨a, _, rfl⟩ | h
      · exact ⟨k, a.1, rfl, le_refl k⟩
      · obtain ⟨j, t, het, hj⟩ := ih (k + 1) e h
        exact ⟨j, t, het, by omega⟩

theorem found_child_mem (cs : List Node) (k : ℕ) (i : ℕ) (t : List ℕ) (m : Node)
    (h : ((i :: t : List ℕ), m) ∈ find_learning_nodes_children cs k) :
    k ≤ i ∧ ∃ c, cs.get? (i - k) = some c ∧ ((t, m) : FoundNode) ∈ find_learning_nodes_from c := by
  induction cs generalizing k with
  | nil => simp [find_learning_nodes_children] at h
  | cons c rest ih =>
      simp only [find_learning_nodes_children, List.mem_append, List.mem_map] at h
      rcases h with ⟨a, ha, heq⟩ | h
      · have h1 : i = k ∧ t = a.1 ∧ m = a.2 := by
          have := congrArg Prod.fst heq
          have h2 := congrArg Prod.snd heq
          simp at this h2
          exact ⟨this.1.symm, this.2.symm, h2.symm⟩
        obtain ⟨rfl, rfl, rfl⟩ := h1
        refine ⟨le_refl _, c, by simp, ha⟩
      · obtain ⟨hk, c1, hc1, hm⟩ := ih (k + 1) h
        refine ⟨by omega, c1, ?_, hm⟩
        have : i - k = (i - (k + 1)) + 1 := by omega
        rw [this]
        simpa using hc1

end River

namespace River

theorem map_id_of_mem {α : Type} (L : List α) (f : α → α) (h : ∀ e ∈ L, f e = e) :
    L.map f = L := by
  induction L with
  | nil => rfl
  | cons a l ih =>
      simp only [List.map_cons, h a (by simp)]
      rw [ih (fun e he => h e (by simp [he]))]

theorem paths_nodup_children (cs0 : List Node) (k0 : ℕ) :
    ((find_learning_nodes_children cs0 k0).map Prod.fst).Nodup := by
  refine find_learning_nodes_children.induct
    (fun n => ((find_learning_nodes_from n).map Prod.fst).Nodup)
    (fun cs k => ((find_learning_nodes_children cs k).map Prod.fst).Nodup)
    ?_ ?_ ?_ ?_ cs0 k0
  · intro a s d; simp [find_learning_nodes_from]
  · intro d cs ih; simpa [find_learning_nodes_from] using ih
  · intro k; simp [find_learning_nodes_children]
  · intro c rest i ih1 ih2
    simp only [find_learning_nodes_children, List.map_append, List.map_map]
    refine List.Nodup.append ?_ ih2 ?_
    · have : (Prod.fst ∘ fun e : FoundNode => ((i :: e.1 : List ℕ), e.2))
          = (fun t => (i :: t : List ℕ)) ∘ Prod.fst := rfl
      rw [this, ← List.map_map]
      exact ih1.map (fun x y h => by simpa using h)
    · intro q hq1 hq2
      simp only [List.mem_map, Function.comp] at hq1 hq2
      obtain ⟨e1, _, he1⟩ := hq1
      obtain ⟨e2, he2m, he2⟩ := hq2
      obtain ⟨j, t, hjt, hj⟩ := found_head rest (i + 1) e2 he2m
      rw [← he1] at he2
      rw [hjt] at he2
      have : j = i := by simpa using congrArg (fun l => List.head? l) he2
      omega

theorem paths_nodup (n : Node) :
    ((find_learning_nodes_from n).map Prod.fst).Nodup := by
  cases n with
  | leaf a s d => simp [find_learning_nodes_from]
  | split d cs => simpa [find_learning_nodes_from] using paths_nodup_children cs 0

theorem paths_nodup_root (root : Option Node) :
    ((find_learning_nodes root).map Prod.fst).Nodup := by
  cases root with
  | none => simp [find_learning_nodes]
  | some r => simpa [find_learning_nodes] using paths_nodup r

theorem mem_paths_unique (ns : List FoundNode) (h : (ns.map Prod.fst).Nodup)
    (p : List ℕ) (a b : Node) (ha : (p, a) ∈ ns) (hb : (p, b) ∈ ns) : a = b := by
  induction ns with
  | nil => simp at ha
  | cons e l ih =>
      simp only [List.map_cons, List.nodup_cons] at h
      rcases List.mem_cons.mp ha with rfl | ha2
      · rcases List.mem_cons.mp hb with h2 | hb2
        · exact (congrArg Prod.snd h2.symm : _)
        · have h3 : ∀ x : Node, ((p, x) : FoundNode) ∉ l := by simpa using h.1
          exact absurd hb2 (h3 b)
      · rcases List.mem_cons.mp hb with rfl | hb2
        · have h3 : ∀ x : Node, ((p, x) : FoundNode) ∉ l := by simpa using h.1
          exact absurd ha2 (h3 a)
        · exact ih h.2 ha2 hb2

theorem upd_self (ns : List FoundNode) (p : List ℕ) (n : Node)
    (hmem : ((p, n) : FoundNode) ∈ ns) (h : (ns.map Prod.fst).Nodup) :
    ns.map (upd p n) = ns := by
  refine map_id_of_mem ns (upd p n) (fun e he => ?_)
  by_cases hp : e.1 = p
  · have he2 : (p, e.2) ∈ ns := by rw [← hp]; exact he
    have h4 : e.2 = n := mem_paths_unique ns h p e.2 n he2 hmem
    simp only [upd, hp, if_pos]
    exact (Prod.ext_iff.mpr ⟨hp, h4⟩).symm
  · simp [upd, hp]

end River

namespace River

theorem upd_map_cons (i : ℕ) (t : List ℕ) (m : Node) (L : List FoundNode) :
    (L.map (fun e : FoundNode => ((i :: e.1 : List ℕ), e.2))).map (upd (i :: t) m)
      = (L.map (upd t m)).map (fun e : FoundNode => ((i :: e.1 : List ℕ), e.2)) := by
  simp only [List.map_map]
  refine List.map_congr_left (fun e _ => ?_)
  by_cases hp : e.1 = t
  · simp [Function.comp, upd, hp]
  · simp [Function.comp, upd, hp]

theorem upd_id_head_ne (i : ℕ) (t : List ℕ) (m : Node) (L : List FoundNode)
    (h : ∀ e ∈ L, ∀ q : List ℕ, e.1 = q → q ≠ i :: t) :
    L.map (upd (i :: t) m) = L := by
  refine map_id_of_mem L (upd (i :: t) m) (fun e he => ?_)
  simp [upd, h e he e.1 rfl]

theorem replace_children (cs : List Node) (k i : ℕ) (t : List ℕ) (c m cNew : Node)
    (hk : k ≤ i)
    (hc : cs.get? (i - k) = some c)
    (hnew : find_learning_nodes_from cNew = (find_learning_nodes_from c).map (upd t m)) :
    find_learning_nodes_children (cs.set (i - k) cNew) k
      = (find_learning_nodes_children cs k).map (upd (i :: t) m) := by
  induction cs generalizing k with
  | nil => simp at hc
  | cons c0 rest ih =>
      by_cases hik : i = k
      · subst hik
        simp only [Nat.sub_self] at hc ⊢
        have hcc : c0 = c := by simpa using hc
        subst hcc
        simp only [List.set_cons_zero, find_learning_nodes_children, List.map_append]
        rw [hnew, ← upd_map_cons]
        congr 1
        rw [upd_id_head_ne]
        intro e he q hq
        obtain ⟨j, t2, hjt, hj⟩ := found_head rest (i + 1) e he
        rw [hq] at hjt
        rw [hjt]
        intro hcontra
        have : j = i := by simpa using congrArg (fun l => List.head? l) hcontra
        omega
      · have hik2 : k < i := lt_of_le_of_ne hk (Ne.symm hik)
        have hsub : i - k = (i - (k + 1)) + 1 := by omega
        rw [hsub] at hc ⊢
        simp only [List.get?_cons_succ] at hc
        simp only [List.set_cons_succ, find_learning_nodes_children, List.map_append]
        rw [ih (k + 1) (by omega) hc]
        congr 1
        rw [upd_id_head_ne]
        intro e he q hq
        simp only [List.mem_map] at he
        obtain ⟨a, _, ha⟩ := he
        have hq2 : q = k :: a.1 := by rw [← hq, ← ha]
        rw [hq2]
        intro hcontra
        have : k = i := by simpa using congrArg (fun l => List.head? l) hcontra
        omega

end River

namespace River

theorem replace_found (p : List ℕ) (root m : Node)
    (hmem : ∃ n, ((p, n) : FoundNode) ∈ find_learning_nodes_from root)
    (hm : m.isLeafNode = true) :
    find_learning_nodes_from (set_child_at p root m)
      = (find_learning_nodes_from root).map (upd p m) := by
  induction p generalizing root with
  | nil =>
      obtain ⟨n, hn⟩ := hmem
      cases root with
      | leaf a s d =>
          cases m with
          | leaf a2 s2 d2 => simp [find_learning_nodes_from, set_child_at, upd]
          | split d2 cs2 => simp [Node.isLeafNode] at hm
      | split d cs =>
          exfalso
          obtain ⟨j, t, hjt, -⟩ := found_head cs 0 ([], n)
            (by simpa [find_learning_nodes_from] using hn)
          simp at hjt
  | cons i t ih =>
      obtain ⟨n, hn⟩ := hmem
      cases root with
      | leaf a s d => simp [find_learning_nodes_from] at hn
      | split d cs =>
          have hn2 : ((i :: t : List ℕ), n) ∈ find_learning_nodes_children cs 0 := by
            simpa [find_learning_nodes_from] using hn
          obtain ⟨-, c, hc, hmem2⟩ := found_child_mem cs 0 i t n hn2
          simp only [Nat.sub_zero] at hc
          have hc2 : cs[i]? = some c := by
            rw [← List.get?_eq_getElem?]; exact hc
          have hset : set_child_at (i :: t) (Node.split d cs) m
              = Node.split d (cs.set i (set_child_at t c m)) := by
            simp [set_child_at, hc2]
          rw [hset]
          simp only [find_learning_nodes_from]
          have hrw := replace_children cs 0 i t c m (set_child_at t c m)
            (Nat.zero_le i) (by simpa using hc) (ih c ⟨n, hmem2⟩)
          simpa using hrw

theorem replace_root_some (r : Node) (p : List ℕ) (m : Node) :
    replace_root (some r) p m = some (set_child_at p r m) := by
  cases p with
  | nil => rfl
  | cons i t => rfl

theorem replace_found_root (root : Option Node) (p : List ℕ) (m : Node)
    (hmem : ∃ n, ((p, n) : FoundNode) ∈ find_learning_nodes root)
    (hm : m.isLeafNode = true) :
    find_learning_nodes (replace_root root p m)
      = (find_learning_nodes root).map (upd p m) := by
  cases root with
  | none =>
      obtain ⟨n, hn⟩ := hmem
      simp [find_learning_nodes] at hn
  | some r =>
      rw [replace_root_some]
      simp only [find_learning_nodes]
      exact replace_found p r m (by simpa [find_learning_nodes] using hmem) hm

end River

namespace River

theorem found_leaf_root (root : Option Node) :
    ∀ e ∈ find_learning_nodes root, e.2.isLeafNode = true := by
  cases root with
  | none => intro e he; simp [find_learning_nodes] at he
  | some r => intro e he; exact found_leaf r e (by simpa [find_learning_nodes] using he)

theorem deactivate_leaf_def (s : TreeState) (n : Node) (p : List ℕ) :
    deactivate_leaf s n p = { s with
      tree_root := replace_root s.tree_root p (Node.leaf false n.statsOf n.depthOf)
      n_active_leaves := s.n_active_leaves - 1
      n_inactive_leaves := s.n_inactive_leaves + 1 } := by
  simp [deactivate_leaf, new_learning_node, Node.withDepth, Node.depthOf]

theorem activate_leaf_def (s : TreeState) (n : Node) (p : List ℕ) :
    activate_leaf s n p = { s with
      tree_root := replace_root s.tree_root p (Node.leaf true n.statsOf n.depthOf)
      n_active_leaves := s.n_active_leaves + 1
      n_inactive_leaves := s.n_inactive_leaves - 1 } := by
  simp [activate_leaf, new_learning_node, Node.withDepth, Node.depthOf]

theorem deactivation_loop_config (l : List FoundNode) (s : TreeState) :
    (deactivation_loop s l).max_depth = s.max_depth
    ∧ (deactivation_loop s l).stop_mem_management = s.stop_mem_management
    ∧ (deactivation_loop s l).max_byte_size = s.max_byte_size
    ∧ (deactivation_loop s l).n_decision_nodes = s.n_decision_nodes
    ∧ (deactivation_loop s l).inactive_leaf_size_estimate = s.inactive_leaf_size_estimate
    ∧ (deactivation_loop s l).active_leaf_size_estimate = s.active_leaf_size_estimate
    ∧ (deactivation_loop s l).size_estimate_overhead_fraction
        = s.size_estimate_overhead_fraction
    ∧ (deactivation_loop s l).growth_allowed = s.growth_allowed := by
  induction l generalizing s with
  | nil => exact ⟨rfl, rfl, rfl, rfl, rfl, rfl, rfl, rfl⟩
  | cons f rest ih =>
      simp only [deactivation_loop]
      obtain ⟨h1, h2, h3, h4, h5, h6, h7, h8⟩ :=
        ih (if f.2.isActiveLeaf = true then deactivate_leaf s f.2 f.1 else s)
      by_cases h : f.2.isActiveLeaf <;> simp_all [deactivate_leaf]

theorem activation_loop_config (l : List FoundNode) (s : TreeState) :
    (activation_loop s l).max_depth = s.max_depth
    ∧ (activation_loop s l).stop_mem_management = s.stop_mem_management
    ∧ (activation_loop s l).max_byte_size = s.max_byte_size
    ∧ (activation_loop s l).n_decision_nodes = s.n_decision_nodes
    ∧ (activation_loop s l).inactive_leaf_size_estimate = s.inactive_leaf_size_estimate
    ∧ (activation_loop s l).active_leaf_size_estimate = s.active_leaf_size_estimate
    ∧ (activation_loop s l).size_estimate_overhead_fraction
        = s.size_estimate_overhead_fraction
    ∧ (activation_loop s l).growth_allowed = s.growth_allowed := by
  induction l generalizing s with
  | nil => exact ⟨rfl, rfl, rfl, rfl, rfl, rfl, rfl, rfl⟩
  | cons f rest ih =>
      simp only [activation_loop]
      by_cases h : f.2.isInactiveLeaf = true ∧ (f.2.depthOf : WithTop ℤ) < s.max_depth
      · simp only [if_pos h]
        obtain ⟨h1, h2, h3, h4, h5, h6, h7, h8⟩ := ih (activate_leaf s f.2 f.1)
        simp_all [activate_leaf]
      · simp only [if_neg h]
        exact ih s

theorem deactivation_loop_counts (l : List FoundNode) (s : TreeState) :
    (deactivation_loop s l).n_active_leaves
        = s.n_active_leaves - (l.countP (fun f => f.2.isActiveLeaf) : ℤ)
    ∧ (deactivation_loop s l).n_inactive_leaves
        = s.n_inactive_leaves + (l.countP (fun f => f.2.isActiveLeaf) : ℤ) := by
  induction l generalizing s with
  | nil => simp [deactivation_loop]
  | cons f rest ih =>
      simp only [deactivation_loop, List.countP_cons]
      obtain ⟨h1, h2⟩ :=
        ih (if f.2.isActiveLeaf = true then deactivate_leaf s f.2 f.1 else s)
      by_cases h : f.2.isActiveLeaf <;>
        simp_all [deactivate_leaf] <;> push_cast <;> omega

theorem activation_loop_counts (l : List FoundNode) (s : TreeState) :
    (activation_loop s l).n_active_leaves
        = s.n_active_leaves
          + (l.countP (fun f => f.2.isInactiveLeaf
              && decide ((f.2.depthOf : WithTop ℤ) < s.max_depth)) : ℤ)
    ∧ (activation_loop s l).n_inactive_leaves
        = s.n_inactive_leaves
          - (l.countP (fun f => f.2.isInactiveLeaf
              && decide ((f.2.depthOf : WithTop ℤ) < s.max_depth)) : ℤ) := by
  induction l generalizing s with
  | nil => simp [activation_loop]
  | cons f rest ih =>
      simp only [activation_loop, List.countP_cons]
      by_cases h : f.2.isInactiveLeaf = true ∧ (f.2.depthOf : WithTop ℤ) < s.max_depth
      · simp only [if_pos h]
        obtain ⟨h1, h2⟩ := ih (activate_leaf s f.2 f.1)
        have hb : (f.2.isInactiveLeaf
            && decide ((f.2.depthOf : WithTop ℤ) < s.max_depth)) = true := by
          simp [h.1, h.2]
        simp only [hb, activate_leaf] at h1 h2 ⊢
        refine ⟨h1.trans ?_, h2.trans ?_⟩ <;> push_cast <;> ring
      · simp only [if_neg h]
        obtain ⟨h1, h2⟩ := ih s
        have hb : (f.2.isInactiveLeaf
            && decide ((f.2.depthOf : WithTop ℤ) < s.max_depth)) = false := by
          rcases Decidable.not_and_iff_or_not.mp h with h3 | h3 <;> simp [h3]
        simp only [hb, h1, h2]
        constructor <;> push_cast <;> omega

end River

namespace River

theorem deactivation_loop_tree (l : List FoundNode) (s : TreeState)
    (hsub : ∀ f ∈ l, f ∈ find_learning_nodes s.tree_root)
    (hnodup : (l.map Prod.fst).Nodup) :
    find_learning_nodes (deactivation_loop s l).tree_root
      = (find_learning_nodes s.tree_root).map
          (fun e => if e.1 ∈ l.map Prod.fst then (e.1, deact_step e.2) else e) := by
  induction l generalizing s with
  | nil =>
      simp only [deactivation_loop, List.map_nil]
      rw [map_id_of_mem]
      intro e _
      simp
  | cons f rest ih =>
      have hf : f ∈ find_learning_nodes s.tree_root := hsub f (by simp)
      have hfmem : ((f.1, f.2) : FoundNode) ∈ find_learning_nodes s.tree_root := by
        simpa using hf
      have hnall := paths_nodup_root s.tree_root
      rw [List.map_cons, List.nodup_cons] at hnodup
      have hfnotrest := hnodup.1
      have hrestnodup := hnodup.2
      simp only [deactivation_loop]
      have key : find_learning_nodes
          (if f.2.isActiveLeaf = true then deactivate_leaf s f.2 f.1 else s).tree_root
          = (find_learning_nodes s.tree_root).map (upd f.1 (deact_step f.2)) := by
        by_cases h : f.2.isActiveLeaf
        · simp only [if_pos h, deactivate_leaf_def]
          have hds : deact_step f.2 = Node.leaf false f.2.statsOf f.2.depthOf := by
            simp [deact_step, h]
          rw [hds]
          exact replace_found_root s.tree_root f.1 _ ⟨f.2, hfmem⟩ rfl
        · simp only [if_neg h]
          have hds : deact_step f.2 = f.2 := by simp [deact_step, h]
          rw [hds, upd_self _ _ _ hfmem hnall]
      set s1 := if f.2.isActiveLeaf = true then deactivate_leaf s f.2 f.1 else s with hs1
      have hsub1 : ∀ g ∈ rest, g ∈ find_learning_nodes s1.tree_root := by
        intro g hg
        rw [key]
        have hgne : g.1 ≠ f.1 := by
          intro hcontra
          exact hfnotrest (by simpa [← hcontra] using List.mem_map_of_mem Prod.fst hg)
        refine List.mem_map.mpr ⟨g, hsub g (by simp [hg]), ?_⟩
        simp [upd, hgne]
      rw [ih s1 hsub1 hrestnodup, key, List.map_map]
      refine List.map_congr_left (fun e he => ?_)
      simp only [Function.comp_apply, List.map_cons, List.mem_cons]
      by_cases hp : e.1 = f.1
      · have he2 : ((f.1, e.2) : FoundNode) ∈ find_learning_nodes s.tree_root := by
          rw [← hp]; simpa using he
        have hee : e.2 = f.2 := mem_paths_unique _ hnall f.1 e.2 f.2 he2 hfmem
        have hupd : upd f.1 (deact_step f.2) e = (f.1, deact_step f.2) := by
          simp [upd, hp]
        rw [hupd]
        simp only [if_neg hfnotrest]
        rw [if_pos (Or.inl hp)]
        rw [hp, hee]
      · have hupd : upd f.1 (deact_step f.2) e = e := by simp [upd, hp]
        rw [hupd]
        by_cases hq : e.1 ∈ rest.map Prod.fst
        · rw [if_pos hq, if_pos (Or.inr hq)]
        · rw [if_neg hq, if_neg ?_]
          rintro (h2 | h2)
          exacts [hp h2, hq h2]

end River

namespace River

theorem activation_loop_tree (l : List FoundNode) (s : TreeState)
    (hsub : ∀ f ∈ l, f ∈ find_learning_nodes s.tree_root)
    (hnodup : (l.map Prod.fst).Nodup) :
    find_learning_nodes (activation_loop s l).tree_root
      = (find_learning_nodes s.tree_root).map
          (fun e => if e.1 ∈ l.map Prod.fst
            then (e.1, act_step s.max_depth e.2) else e) := by
  induction l generalizing s with
  | nil =>
      simp only [activation_loop, List.map_nil]
      rw [map_id_of_mem]
      intro e _
      simp
  | cons f rest ih =>
      have hf : f ∈ find_learning_nodes s.tree_root := hsub f (by simp)
      have hfmem : ((f.1, f.2) : FoundNode) ∈ find_learning_nodes s.tree_root := by
        simpa using hf
      have hnall := paths_nodup_root s.tree_root
      rw [List.map_cons, List.nodup_cons] at hnodup
      have hfnotrest := hnodup.1
      have hrestnodup := hnodup.2
      simp only [activation_loop]
      have key : find_learning_nodes
          (if f.2.isInactiveLeaf = true ∧ (f.2.depthOf : WithTop ℤ) < s.max_depth
            then activate_leaf s f.2 f.1 else s).tree_root
          = (find_learning_nodes s.tree_root).map
              (upd f.1 (act_step s.max_depth f.2)) := by
        by_cases h : f.2.isInactiveLeaf = true ∧ (f.2.depthOf : WithTop ℤ) < s.max_depth
        · simp only [if_pos h, activate_leaf_def]
          have has : act_step s.max_depth f.2 = Node.leaf true f.2.statsOf f.2.depthOf := by
            simp [act_step, h]
          rw [has]
          exact replace_found_root s.tree_root f.1 _ ⟨f.2, hfmem⟩ rfl
        · simp only [if_neg h]
          have has : act_step s.max_depth f.2 = f.2 := by simp [act_step, h]
          rw [has, upd_self _ _ _ hfmem hnall]
      set s1 := if f.2.isInactiveLeaf = true ∧ (f.2.depthOf : WithTop ℤ) < s.max_depth
        then activate_leaf s f.2 f.1 else s with hs1
      have hmd : s1.max_depth = s.max_depth := by
        by_cases h : f.2.isInactiveLeaf = true ∧ (f.2.depthOf : WithTop ℤ) < s.max_depth
        · rw [hs1, if_pos h]; rfl
        · rw [hs1, if_neg h]
      have hsub1 : ∀ g ∈ rest, g ∈ find_learning_nodes s1.tree_root := by
        intro g hg
        rw [key]
        have hgne : g.1 ≠ f.1 := by
          intro hcontra
          exact hfnotrest (by simpa [← hcontra] using List.mem_map_of_mem Prod.fst hg)
        refine List.mem_map.mpr ⟨g, hsub g (by simp [hg]), ?_⟩
        simp [upd, hgne]
      rw [ih s1 hsub1 hrestnodup, hmd, key, List.map_map]
      refine List.map_congr_left (fun e he => ?_)
      simp only [Function.comp_apply, List.map_cons, List.mem_cons]
      by_cases hp : e.1 = f.1
      · have he2 : ((f.1, e.2) : FoundNode) ∈ find_learning_nodes s.tree_root := by
          rw [← hp]; simpa using he
        have hee : e.2 = f.2 := mem_paths_unique _ hnall f.1 e.2 f.2 he2 hfmem
        have hupd : upd f.1 (act_step s.max_depth f.2) e
            = (f.1, act_step s.max_depth f.2) := by
          simp [upd, hp]
        rw [hupd]
        simp only [if_neg hfnotrest]
        rw [if_pos (Or.inl hp)]
        rw [hp, hee]
      · have hupd : upd f.1 (act_step s.max_depth f.2) e = e := by simp [upd, hp]
        rw [hupd]
        by_cases hq : e.1 ∈ rest.map Prod.fst
        · rw [if_pos hq, if_pos (Or.inr hq)]
        · rw [if_neg hq, if_neg ?_]
          rintro (h2 | h2)
          exacts [hp h2, hq h2]

end River

namespace River

theorem enforce_scan_eq (s : TreeState) :
    enforce_scan s
      = activation_loop
          (deactivation_loop s ((sorted_found s).take (scan_cutoff s)))
          ((sorted_found s).drop (scan_cutoff s)) := rfl

theorem sorted_found_perm (s : TreeState) :
    (sorted_found s).Perm (find_learning_nodes s.tree_root) :=
  List.mergeSort_perm _ _

theorem sorted_paths_nodup (s : TreeState) :
    ((sorted_found s).map Prod.fst).Nodup := by
  have h := (sorted_found_perm s).map Prod.fst
  exact (h.nodup_iff).mpr (paths_nodup_root s.tree_root)

theorem sorted_paths_split (s : TreeState) :
    (((sorted_found s).take (scan_cutoff s)).map Prod.fst).Nodup
    ∧ (((sorted_found s).drop (scan_cutoff s)).map Prod.fst).Nodup
    ∧ (((sorted_found s).take (scan_cutoff s)).map Prod.fst).Disjoint
        (((sorted_found s).drop (scan_cutoff s)).map Prod.fst) := by
  have h := sorted_paths_nodup s
  rw [← List.take_append_drop (scan_cutoff s) (sorted_found s), List.map_append,
    List.nodup_append] at h
  exact h

theorem mem_take_of_find (s : TreeState) :
    ∀ f ∈ (sorted_found s).take (scan_cutoff s), f ∈ find_learning_nodes s.tree_root := by
  intro f hf
  exact (sorted_found_perm s).mem_iff.mp (List.mem_of_mem_take hf)

theorem mem_drop_of_find (s : TreeState) :
    ∀ f ∈ (sorted_found s).drop (scan_cutoff s), f ∈ find_learning_nodes s.tree_root := by
  intro f hf
  exact (sorted_found_perm s).mem_iff.mp (List.mem_of_mem_drop hf)

theorem enforce_scan_tree (s : TreeState) :
    find_learning_nodes (enforce_scan s).tree_root
      = (find_learning_nodes s.tree_root).map (enforce_entry_step s) := by
  obtain ⟨hntk, hndp, hdisj⟩ := sorted_paths_split s
  rw [enforce_scan_eq]
  set tk := (sorted_found s).take (scan_cutoff s) with htk
  set dp := (sorted_found s).drop (scan_cutoff s) with hdp
  set s1 := deactivation_loop s tk with hs1
  have hdeact := deactivation_loop_tree tk s (mem_take_of_find s) hntk
  have hsub1 : ∀ g ∈ dp, g ∈ find_learning_nodes s1.tree_root := by
    intro g hg
    rw [hs1, hdeact]
    have hgtk : g.1 ∉ tk.map Prod.fst :=
      fun hmem => hdisj hmem (List.mem_map_of_mem Prod.fst hg)
    exact List.mem_map.mpr ⟨g, mem_drop_of_find s g hg, by simp [hgtk]⟩
  have hmd : s1.max_depth = s.max_depth := (deactivation_loop_config tk s).1
  rw [activation_loop_tree dp s1 hsub1 hndp, hmd, hs1, hdeact, List.map_map]
  refine List.map_congr_left (fun e _ => ?_)
  simp only [Function.comp_apply, enforce_entry_step]
  by_cases hp : e.1 ∈ tk.map Prod.fst
  · rw [if_pos hp, if_pos hp, if_neg (fun hmem => hdisj hp hmem)]
  · rw [if_neg hp, if_neg hp]

theorem enforce_scan_config (s : TreeState) :
    (enforce_scan s).max_depth = s.max_depth
    ∧ (enforce_scan s).stop_mem_management = s.stop_mem_management
    ∧ (enforce_scan s).max_byte_size = s.max_byte_size
    ∧ (enforce_scan s).n_decision_nodes = s.n_decision_nodes
    ∧ (enforce_scan s).inactive_leaf_size_estimate = s.inactive_leaf_size_estimate
    ∧ (enforce_scan s).active_leaf_size_estimate = s.active_leaf_size_estimate
    ∧ (enforce_scan s).size_estimate_overhead_fraction = s.size_estimate_overhead_fraction
    ∧ (enforce_scan s).growth_allowed = s.growth_allowed := by
  rw [enforce_scan_eq]
  obtain ⟨a1, a2, a3, a4, a5, a6, a7, a8⟩ :=
    activation_loop_config ((sorted_found s).drop (scan_cutoff s))
      (deactivation_loop s ((sorted_found s).take (scan_cutoff s)))
  obtain ⟨d1, d2, d3, d4, d5, d6, d7, d8⟩ :=
    deactivation_loop_config ((sorted_found s).take (scan_cutoff s)) s
  exact ⟨a1.trans d1, a2.trans d2, a3.trans d3, a4.trans d4, a5.trans d5,
    a6.trans d6, a7.trans d7, a8.trans d8⟩

theorem enforce_scan_counts (s : TreeState) :
    (enforce_scan s).n_active_leaves
      = s.n_active_leaves
        - (((sorted_found s).take (scan_cutoff s)).countP
            (fun f => f.2.isActiveLeaf) : ℤ)
        + (((sorted_found s).drop (scan_cutoff s)).countP
            (fun f => f.2.isInactiveLeaf
              && decide ((f.2.depthOf : WithTop ℤ) < s.max_depth)) : ℤ)
    ∧ (enforce_scan s).n_inactive_leaves
      = s.n_inactive_leaves
        + (((sorted_found s).take (scan_cutoff s)).countP
            (fun f => f.2.isActiveLeaf) : ℤ)
        - (((sorted_found s).drop (scan_cutoff s)).countP
            (fun f => f.2.isInactiveLeaf
              && decide ((f.2.depthOf : WithTop ℤ) < s.max_depth)) : ℤ) := by
  rw [enforce_scan_eq]
  set tk := (sorted_found s).take (scan_cutoff s) with htk
  set dp := (sorted_found s).drop (scan_cutoff s) with hdp
  set s1 := deactivation_loop s tk with hs1
  obtain ⟨ha, hi⟩ := activation_loop_counts dp s1
  obtain ⟨da, di⟩ := deactivation_loop_counts tk s
  have hmd : s1.max_depth = s.max_depth := (deactivation_loop_config tk s).1
  rw [hmd] at ha hi
  rw [ha, hi, da, di]
  constructor <;> ring

end River

namespace River

theorem countP_not_add {α : Type} (p : α → Bool) (l : List α) :
    l.countP (fun a => !(p a)) + l.countP p = l.length := by
  induction l with
  | nil => rfl
  | cons a t ih =>
      by_cases h : p a = true <;> simp [List.countP_cons, h] <;> omega

theorem enforce_size_limit_no_stop (s : TreeState)
    (hstop : s.stop_mem_management = false) :
    enforce_size_limit s = enforce_scan s := by
  unfold enforce_size_limit
  rw [hstop]
  by_cases h : 0 < s.n_inactive_leaves ∨ s.max_byte_size < tree_size_check s
  · rw [if_pos h, if_neg (by simp)]
  · rw [if_neg h]

theorem enforce_size_limit_cases (s : TreeState) :
    enforce_size_limit s = enforce_scan s
    ∨ enforce_size_limit s = { s with growth_allowed := false } := by
  unfold enforce_size_limit
  by_cases h : 0 < s.n_inactive_leaves ∨ s.max_byte_size < tree_size_check s
  · rw [if_pos h]
    by_cases h2 : s.stop_mem_management
    · right; rw [if_pos h2]
    · left; rw [if_neg h2]
  · left; rw [if_neg h]

theorem sorted_found_length (s : TreeState) :
    (sorted_found s).length = leaf_count s.tree_root := by
  rw [sorted_found, leaf_count, List.length_mergeSort]

theorem take_paths_count (s : TreeState) :
    (find_learning_nodes s.tree_root).countP
        (fun e => decide (e.1 ∈ ((sorted_found s).take (scan_cutoff s)).map Prod.fst))
      = ((sorted_found s).take (scan_cutoff s)).length := by
  obtain ⟨-, -, hdisj⟩ := sorted_paths_split s
  set tk := (sorted_found s).take (scan_cutoff s) with htk
  set dp := (sorted_found s).drop (scan_cutoff s) with hdp
  have hperm := (sorted_found_perm s).symm
  rw [hperm.countP_eq]
  have hsplit : sorted_found s = tk ++ dp := (List.take_append_drop _ _).symm
  rw [hsplit, List.countP_append]
  have h1 : tk.countP (fun e => decide (e.1 ∈ tk.map Prod.fst)) = tk.length :=
    List.countP_eq_length.mpr
      (fun e he => by simpa using List.mem_map_of_mem Prod.fst he)
  have h2 : dp.countP (fun e => decide (e.1 ∈ tk.map Prod.fst)) = 0 :=
    List.countP_eq_zero.mpr
      (fun e he => by simpa using fun hmem => hdisj hmem (List.mem_map_of_mem Prod.fst he))
  rw [h1, h2]
  omega

/-- Claim C4: after any `_enforce_size_limit` call on a state with
`stop_mem_management = false`, the number of leaves in active mode is at most
the `max_active` the greedy scan computes for the current size estimates,
trying counts upward from 0 over the current leaf total. -/
theorem enforce_size_limit_active_leaves_le_max_active (s : TreeState)
    (hstop : s.stop_mem_management = false) :
    active_leaf_count (enforce_size_limit s).tree_root
      ≤ max_active_scan (leaf_count s.tree_root) s.active_leaf_size_estimate
          s.inactive_leaf_size_estimate s.size_estimate_overhead_fraction
          s.max_byte_size := by
  rw [enforce_size_limit_no_stop s hstop]
  rw [active_leaf_count, enforce_scan_tree s, List.countP_map]
  obtain ⟨-, -, hdisj⟩ := sorted_paths_split s
  set tk := (sorted_found s).take (scan_cutoff s) with htk
  set ns := find_learning_nodes s.tree_root with hns
  have hmono : ns.countP ((fun f : FoundNode => f.2.isActiveLeaf) ∘ enforce_entry_step s)
      ≤ ns.countP (fun e => !(decide (e.1 ∈ tk.map Prod.fst))) := by
    refine List.countP_mono_left (fun e he hp => ?_)
    simp only [Function.comp_apply] at hp
    by_contra hq
    simp only [Bool.not_eq_true', decide_eq_false_iff_not, Decidable.not_not] at hq
    have hstep : enforce_entry_step s e = (e.1, deact_step e.2) := by
      rw [enforce_entry_step, if_pos hq]
    rw [hstep] at hp
    have hleaf : e.2.isLeafNode = true := found_leaf_root s.tree_root e he
    cases h2 : e.2 with
    | leaf a st d =>
        rw [h2] at hp
        cases a <;> simp [deact_step, Node.isActiveLeaf, Node.statsOf, Node.depthOf] at hp
    | split d cs => rw [h2] at hleaf; simp [Node.isLeafNode] at hleaf
  have hcount := countP_not_add (fun e : FoundNode => decide (e.1 ∈ tk.map Prod.fst)) ns
  have htkc := take_paths_count s
  rw [← htk, ← hns] at htkc
  have hlen : ns.length = (sorted_found s).length := (sorted_found_perm s).length_eq.symm
  have hgoal : max_active_scan (leaf_count s.tree_root) s.active_leaf_size_estimate
      s.inactive_leaf_size_estimate s.size_estimate_overhead_fraction s.max_byte_size
      = scan_max_active s := by rw [scan_max_active, sorted_found_length]
  rw [hgoal]
  have hcut : scan_cutoff s = (sorted_found s).length - scan_max_active s := rfl
  have htklen : tk.length = min (scan_cutoff s) (sorted_found s).length := by
    rw [htk]; exact List.length_take _ _
  omega

end River

namespace River

/-- Claim C9: in every enforcement pass, an inactive leaf whose stored depth
is at least `max_depth` is never activated — its found-slot entry is unchanged
after `_enforce_size_limit`, even if it ranks above the promise cutoff and the
budget would allow activating it. -/
theorem enforce_size_limit_never_activates_at_max_depth (s : TreeState)
    (p : List ℕ) (st d : ℤ)
    (hmem : ((p, Node.leaf false st d) : FoundNode) ∈ find_learning_nodes s.tree_root)
    (hd : s.max_depth ≤ (d : WithTop ℤ)) :
    ((p, Node.leaf false st d) : FoundNode)
      ∈ find_learning_nodes (enforce_size_limit s).tree_root := by
  rcases enforce_size_limit_cases s with h | h
  · rw [h, enforce_scan_tree s]
    refine List.mem_map.mpr ⟨(p, Node.leaf false st d), hmem, ?_⟩
    have hdeact : deact_step (Node.leaf false st d) = Node.leaf false st d := by
      simp [deact_step, Node.isActiveLeaf]
    have hact : act_step s.max_depth (Node.leaf false st d) = Node.leaf false st d := by
      rw [act_step, if_neg]
      rintro ⟨-, hlt⟩
      exact absurd hlt (not_lt.mpr (by simpa [Node.depthOf] using hd))
    rw [enforce_entry_step]
    by_cases h1 : p ∈ ((sorted_found s).take (scan_cutoff s)).map Prod.fst
    · rw [if_pos (by simpa using h1)]
      rw [hdeact]
    · rw [if_neg (by simpa using h1)]
      by_cases h2 : p ∈ ((sorted_found s).drop (scan_cutoff s)).map Prod.fst
      · rw [if_pos (by simpa using h2)]
        rw [hact]
      · rw [if_neg (by simpa using h2)]
  · rw [h]
    simpa using hmem

theorem deep_inactive_mem :
    ((([0], Node.leaf false 5 1) : FoundNode)
      ∈ find_learning_nodes deep_inactive_state.tree_root) := by
  simp [deep_inactive_state, find_learning_nodes, find_learning_nodes_from,
    find_learning_nodes_children]

theorem enforce_size_limit_never_activates_at_max_depth_witness :
    ((([0], Node.leaf false 5 1) : FoundNode)
        ∈ find_learning_nodes deep_inactive_state.tree_root)
    ∧ deep_inactive_state.max_depth ≤ ((1 : ℤ) : WithTop ℤ)
    ∧ (([0], Node.leaf false 5 1) : FoundNode)
        ∈ find_learning_nodes (enforce_size_limit deep_inactive_state).tree_root :=
  ⟨deep_inactive_mem, le_refl _,
    enforce_size_limit_never_activates_at_max_depth deep_inactive_state [0] 5 1
      deep_inactive_mem (le_refl _)⟩

end River

namespace River

theorem deact_step_promise (n : Node) :
    (deact_step n).calculate_promise = n.calculate_promise := by
  cases n with
  | leaf a st d => cases a <;> simp [deact_step, Node.isActiveLeaf, Node.calculate_promise,
      Node.statsOf]
  | split d cs => simp [deact_step, Node.isActiveLeaf]

theorem act_step_promise (maxD : WithTop ℤ) (n : Node) :
    (act_step maxD n).calculate_promise = n.calculate_promise := by
  rw [act_step]
  by_cases h : n.isInactiveLeaf = true ∧ (n.depthOf : WithTop ℤ) < maxD
  · rw [if_pos h]
    cases n with
    | leaf a st d => simp [Node.calculate_promise, Node.statsOf]
    | split d cs => simp [Node.isInactiveLeaf] at h
  · rw [if_neg h]

theorem entry_step_promise (s : TreeState) (e : FoundNode) :
    (enforce_entry_step s e).2.calculate_promise = e.2.calculate_promise := by
  rw [enforce_entry_step]
  by_cases h1 : e.1 ∈ ((sorted_found s).take (scan_cutoff s)).map Prod.fst
  · rw [if_pos h1]; exact deact_step_promise e.2
  · rw [if_neg h1]
    by_cases h2 : e.1 ∈ ((sorted_found s).drop (scan_cutoff s)).map Prod.fst
    · rw [if_pos h2]; exact act_step_promise s.max_depth e.2
    · rw [if_neg h2]

theorem deact_step_not_active (n : Node) (h : n.isLeafNode = true) :
    (deact_step n).isActiveLeaf = false := by
  cases n with
  | leaf a st d => cases a <;> simp [deact_step, Node.isActiveLeaf]
  | split d cs => simp [Node.isLeafNode] at h

theorem act_step_not_reactivable (maxD : WithTop ℤ) (n : Node) :
    ¬((act_step maxD n).isInactiveLeaf = true
      ∧ ((act_step maxD n).depthOf : WithTop ℤ) < maxD) := by
  cases n with
  | leaf a st d =>
      cases a with
      | true =>
          have : act_step maxD (Node.leaf true st d) = Node.leaf true st d := by
            simp [act_step, Node.isInactiveLeaf]
          rw [this]
          simp [Node.isInactiveLeaf]
      | false =>
          by_cases hd : ((d : WithTop ℤ)) < maxD
          · have : act_step maxD (Node.leaf false st d) = Node.leaf true st d := by
              rw [act_step, if_pos ⟨by simp [Node.isInactiveLeaf],
                by simpa [Node.depthOf] using hd⟩]
              rfl
            rw [this]
            simp [Node.isInactiveLeaf]
          · have : act_step maxD (Node.leaf false st d) = Node.leaf false st d := by
              rw [act_step, if_neg]
              rintro ⟨-, h2⟩
              exact hd (by simpa [Node.depthOf] using h2)
            rw [this]
            rintro ⟨-, h2⟩
            exact hd (by simpa [Node.depthOf] using h2)
  | split d cs =>
      have : act_step maxD (Node.split d cs) = Node.split d cs := by
        simp [act_step, Node.isInactiveLeaf]
      rw [this]
      simp [Node.isInactiveLeaf]

theorem deactivation_loop_noop (l : List FoundNode) (s : TreeState)
    (h : ∀ f ∈ l, f.2.isActiveLeaf = false) : deactivation_loop s l = s := by
  induction l with
  | nil => rfl
  | cons f rest ih =>
      rw [deactivation_loop, if_neg (by simp [h f (by simp)])]
      exact ih (fun g hg => h g (by simp [hg]))

theorem activation_loop_noop (l : List FoundNode) (s : TreeState)
    (h : ∀ f ∈ l, ¬(f.2.isInactiveLeaf = true
      ∧ (f.2.depthOf : WithTop ℤ) < s.max_depth)) : activation_loop s l = s := by
  induction l with
  | nil => rfl
  | cons f rest ih =>
      rw [activation_loop, if_neg (h f (by simp))]
      exact ih (fun g hg => h g (by simp [hg]))

theorem promise_le_entry_step (s : TreeState) :
    ∀ a ∈ find_learning_nodes s.tree_root, ∀ b ∈ find_learning_nodes s.tree_root,
      promise_le a b = promise_le (enforce_entry_step s a) (enforce_entry_step s b) := by
  intro a _ b _
  simp [promise_le, entry_step_promise]

theorem sorted_found_enforce_scan (s : TreeState) :
    sorted_found (enforce_scan s)
      = (sorted_found s).map (enforce_entry_step s) := by
  rw [sorted_found, enforce_scan_tree s, sorted_found]
  exact (List.map_mergeSort (promise_le_entry_step s)).symm

end River

namespace River

/-- Claim C6 (amended): on every state with `stop_mem_management = false`,
calling `_enforce_size_limit` twice in immediate succession with no
intervening updates or re-estimation leaves the engine state after the second
call identical to the state after the first. (As stated over *every* tree
state the claim fails: with `stop_mem_management = true` a first call may
deactivate a leaf via the scan, after which the second call takes the early
branch and additionally clears `_growth_allowed`.) -/
theorem enforce_size_limit_idempotent_no_stop (s : TreeState)
    (hstop : s.stop_mem_management = false) :
    enforce_size_limit (enforce_size_limit s) = enforce_size_limit s := by
  rw [enforce_size_limit_no_stop s hstop]
  have hstop1 : (enforce_scan s).stop_mem_management = false := by
    rw [(enforce_scan_config s).2.1, hstop]
  rw [enforce_size_limit_no_stop _ hstop1]
  obtain ⟨-, -, hmb, -, hie, hae, hov, -⟩ := enforce_scan_config s
  have hsf := sorted_found_enforce_scan s
  have hma : scan_max_active (enforce_scan s) = scan_max_active s := by
    rw [scan_max_active, scan_max_active, hsf, List.length_map, hae, hie, hov, hmb]
  have hco : scan_cutoff (enforce_scan s) = scan_cutoff s := by
    rw [scan_cutoff, scan_cutoff, hsf, List.length_map, hma]
  rw [enforce_scan_eq (enforce_scan s), hsf, hco, ← List.map_take, ← List.map_drop]
  obtain ⟨hntk, hndp, hdisj⟩ := sorted_paths_split s
  have hd : deactivation_loop (enforce_scan s)
      (((sorted_found s).take (scan_cutoff s)).map (enforce_entry_step s))
      = enforce_scan s := by
    apply deactivation_loop_noop
    intro g hg
    obtain ⟨e, he, rfl⟩ := List.mem_map.mp hg
    have hetk : e.1 ∈ ((sorted_found s).take (scan_cutoff s)).map Prod.fst :=
      List.mem_map_of_mem Prod.fst he
    have hstep : enforce_entry_step s e = (e.1, deact_step e.2) := by
      rw [enforce_entry_step, if_pos hetk]
    rw [hstep]
    exact deact_step_not_active e.2
      (found_leaf_root s.tree_root e (mem_take_of_find s e he))
  rw [hd]
  apply activation_loop_noop
  intro g hg
  obtain ⟨e, he, rfl⟩ := List.mem_map.mp hg
  have hedp : e.1 ∈ ((sorted_found s).drop (scan_cutoff s)).map Prod.fst :=
    List.mem_map_of_mem Prod.fst he
  have hetk : e.1 ∉ ((sorted_found s).take (scan_cutoff s)).map Prod.fst :=
    fun hmem => hdisj hmem hedp
  have hstep : enforce_entry_step s e = (e.1, act_step s.max_depth e.2) := by
    rw [enforce_entry_step, if_neg hetk, if_pos hedp]
  rw [hstep]
  rw [(enforce_scan_config s).1]
  exact act_step_not_reactivable s.max_depth e.2

theorem enforce_size_limit_idempotent_no_stop_witness :
    lone_leaf_state.stop_mem_management = false
    ∧ enforce_size_limit (enforce_size_limit lone_leaf_state)
        = enforce_size_limit lone_leaf_state :=
  ⟨rfl, enforce_size_limit_idempotent_no_stop lone_leaf_state rfl⟩

end River

namespace River

theorem enforce_size_limit_stop_early (s : TreeState)
    (hstop : s.stop_mem_management = true)
    (hcond : 0 < s.n_inactive_leaves ∨ s.max_byte_size < tree_size_check s) :
    enforce_size_limit s = { s with growth_allowed := false } := by
  rw [enforce_size_limit, if_pos hcond, if_pos hstop]

theorem two_leaf_find :
    find_learning_nodes two_leaf_state.tree_root
      = [([0], Node.leaf true 0 1), ([1], Node.leaf true 1 1)] := rfl

theorem two_leaf_sorted :
    sorted_found two_leaf_state
      = [([0], Node.leaf true 0 1), ([1], Node.leaf true 1 1)] := by
  rw [sorted_found, two_leaf_find]
  exact List.mergeSort_of_sorted (by decide)

theorem two_leaf_scan : scan_max_active two_leaf_state = 1 := by
  rw [scan_max_active, sorted_found_length]
  have h2 : leaf_count two_leaf_state.tree_root = 2 := rfl
  rw [h2]
  show max_active_scan 2 1 0 1 1 = 1
  rw [max_active_scan, scan_loop]
  norm_num
  rw [scan_loop]
  norm_num

end River

namespace River

theorem two_leaf_take :
    (sorted_found two_leaf_state).take (scan_cutoff two_leaf_state)
      = [([0], Node.leaf true 0 1)] := by
  have hcut : scan_cutoff two_leaf_state = 1 := by
    rw [scan_cutoff, sorted_found_length, two_leaf_scan]
    rfl
  rw [two_leaf_sorted, hcut]
  rfl

theorem two_leaf_drop :
    (sorted_found two_leaf_state).drop (scan_cutoff two_leaf_state)
      = [([1], Node.leaf true 1 1)] := by
  have hcut : scan_cutoff two_leaf_state = 1 := by
    rw [scan_cutoff, sorted_found_length, two_leaf_scan]
    rfl
  rw [two_leaf_sorted, hcut]
  rfl

/-- Claim C6 counterexample: on `two_leaf_state` (two active leaves,
`stop_mem_management = true`, budget high enough that the size precheck
passes), the first `_enforce_size_limit` call reaches the scan and
deactivates the least-promising leaf; the second call then finds an inactive
leaf, takes the early branch, and flips `_growth_allowed` from `true` to
`false`, so the state after the second call differs from the state after the
first. -/
theorem enforce_size_limit_second_call_differs :
    enforce_size_limit (enforce_size_limit two_leaf_state)
      ≠ enforce_size_limit two_leaf_state := by
  have h1 : enforce_size_limit two_leaf_state = enforce_scan two_leaf_state := by
    rw [enforce_size_limit, if_neg (by norm_num [two_leaf_state, tree_size_check])]
  have hni : (enforce_size_limit two_leaf_state).n_inactive_leaves = 1 := by
    rw [h1, (enforce_scan_counts two_leaf_state).2, two_leaf_take, two_leaf_drop]
    norm_num [List.countP_cons, Node.isActiveLeaf, Node.isInactiveLeaf, two_leaf_state]
  have hstop2 : (enforce_size_limit two_leaf_state).stop_mem_management = true := by
    rw [h1, (enforce_scan_config two_leaf_state).2.1]
    rfl
  have hg1 : (enforce_size_limit two_leaf_state).growth_allowed = true := by
    rw [h1, (enforce_scan_config two_leaf_state).2.2.2.2.2.2.2]
    rfl
  have h2 : enforce_size_limit (enforce_size_limit two_leaf_state)
      = { enforce_size_limit two_leaf_state with growth_allowed := false } :=
    enforce_size_limit_stop_early _ hstop2 (Or.inl (by rw [hni]; norm_num))
  intro h
  rw [h2] at h
  have h3 : (false : Bool) = (enforce_size_limit two_leaf_state).growth_allowed :=
    congrArg TreeState.growth_allowed h
  rw [hg1] at h3
  exact Bool.false_ne_true h3

end River

namespace River

theorem countP_upd (ns : List FoundNode) (p : List ℕ) (n m : Node)
    (q : FoundNode → Bool)
    (hmem : ((p, n) : FoundNode) ∈ ns) (hnodup : (ns.map Prod.fst).Nodup) :
    (ns.map (upd p m)).countP q + (if q (p, n) then 1 else 0)
      = ns.countP q + (if q (p, m) then 1 else 0) := by
  induction ns with
  | nil => simp at hmem
  | cons e rest ih =>
      rw [List.map_cons, List.nodup_cons] at hnodup
      rcases List.mem_cons.mp hmem with heq | hmem2
      · have hep : p = e.1 := congrArg Prod.fst heq
        have hupd : upd p m e = (p, m) := by simp [upd, hep.symm]
        have hrest : rest.map (upd p m) = rest := by
          refine map_id_of_mem rest (upd p m) (fun g hg => ?_)
          have hne : g.1 ≠ p := by
            intro hc
            apply hnodup.1
            rw [hep] at hc
            rw [← hc]
            exact List.mem_map_of_mem Prod.fst hg
          simp [upd, hne]
        rw [List.map_cons, hupd, hrest, List.countP_cons, List.countP_cons]
        have hqe : q e = q (p, n) := by rw [← heq]
        rw [hqe]
        by_cases h1 : q (p, m) = true <;> by_cases h2 : q (p, n) = true <;>
          simp [h1, h2] <;> omega
      · have hene : e.1 ≠ p := by
          intro hc
          apply hnodup.1
          rw [hc]
          exact List.mem_map_of_mem Prod.fst hmem2
        have hupd : upd p m e = e := by simp [upd, hene]
        rw [List.map_cons, hupd, List.countP_cons, List.countP_cons]
        have hih := ih hmem2 hnodup.2
        omega

theorem countP_upd_tf (ns : List FoundNode) (p : List ℕ) (n m : Node)
    (q : FoundNode → Bool)
    (hmem : ((p, n) : FoundNode) ∈ ns) (hnodup : (ns.map Prod.fst).Nodup)
    (hn : q (p, n) = true) (hm : q (p, m) = false) :
    (ns.map (upd p m)).countP q + 1 = ns.countP q := by
  have h := countP_upd ns p n m q hmem hnodup
  rw [hn, hm] at h
  simpa using h

theorem countP_upd_ft (ns : List FoundNode) (p : List ℕ) (n m : Node)
    (q : FoundNode → Bool)
    (hmem : ((p, n) : FoundNode) ∈ ns) (hnodup : (ns.map Prod.fst).Nodup)
    (hn : q (p, n) = false) (hm : q (p, m) = true) :
    (ns.map (upd p m)).countP q = ns.countP q + 1 := by
  have h := countP_upd ns p n m q hmem hnodup
  rw [hn, hm] at h
  simpa using h

theorem countP_congr_mem {α : Type} (l : List α) (p q : α → Bool)
    (h : ∀ a ∈ l, p a = q a) : l.countP p = l.countP q := by
  induction l with
  | nil => rfl
  | cons a t ih =>
      rw [List.countP_cons, List.countP_cons, h a (by simp),
        ih (fun b hb => h b (by simp [hb]))]

theorem active_add_inactive (root : Option Node) :
    active_leaf_count root + inactive_leaf_count root = leaf_count root := by
  rw [active_leaf_count, inactive_leaf_count, leaf_count]
  have hco : (find_learning_nodes root).countP (fun f => f.2.isInactiveLeaf)
      = (find_learning_nodes root).countP (fun f => !(f.2.isActiveLeaf)) := by
    refine countP_congr_mem _ _ _ (fun f hf => ?_)
    have hleaf := found_leaf_root root f hf
    cases hn : f.2 with
    | leaf a st d => cases a <;> simp [Node.isInactiveLeaf, Node.isActiveLeaf]
    | split d cs => rw [hn] at hleaf; simp [Node.isLeafNode] at hleaf
  rw [hco]
  have := countP_not_add (fun f : FoundNode => f.2.isActiveLeaf)
    (find_learning_nodes root)
  omega

theorem deactivate_leaf_consistent (s : TreeState) (f : FoundNode)
    (hcons : counters_consistent s)
    (hmem : f ∈ find_learning_nodes s.tree_root) (hact : f.2.isActiveLeaf = true) :
    counters_consistent (deactivate_leaf s f.2 f.1)
    ∧ leaf_count (deactivate_leaf s f.2 f.1).tree_root = leaf_count s.tree_root := by
  have hmem2 : ((f.1, f.2) : FoundNode) ∈ find_learning_nodes s.tree_root := by
    simpa using hmem
  have hnodup := paths_nodup_root s.tree_root
  have htree : find_learning_nodes (deactivate_leaf s f.2 f.1).tree_root
      = (find_learning_nodes s.tree_root).map
          (upd f.1 (Node.leaf false f.2.statsOf f.2.depthOf)) := by
    rw [deactivate_leaf_def]
    exact replace_found_root s.tree_root f.1 _ ⟨f.2, hmem2⟩ rfl
  obtain ⟨ha, hi⟩ := hcons
  rw [active_leaf_count] at ha
  rw [inactive_leaf_count] at hi
  have hinact : f.2.isInactiveLeaf = false := by
    cases hn : f.2 with
    | leaf a st d => rw [hn] at hact; cases a <;> simp_all [Node.isActiveLeaf,
        Node.isInactiveLeaf]
    | split d cs => rw [hn] at hact; simp [Node.isActiveLeaf] at hact
  have hca := countP_upd_tf (find_learning_nodes s.tree_root) f.1 f.2
    (Node.leaf false f.2.statsOf f.2.depthOf) (fun g => g.2.isActiveLeaf) hmem2 hnodup
    hact rfl
  have hci := countP_upd_ft (find_learning_nodes s.tree_root) f.1 f.2
    (Node.leaf false f.2.statsOf f.2.depthOf) (fun g => g.2.isInactiveLeaf) hmem2 hnodup
    hinact rfl
  have hfa : (deactivate_leaf s f.2 f.1).n_active_leaves = s.n_active_leaves - 1 := by
    rw [deactivate_leaf_def]
  have hfi : (deactivate_leaf s f.2 f.1).n_inactive_leaves
      = s.n_inactive_leaves + 1 := by
    rw [deactivate_leaf_def]
  refine ⟨⟨?_, ?_⟩, ?_⟩
  · rw [hfa, active_leaf_count, htree]
    omega
  · rw [hfi, inactive_leaf_count, htree]
    omega
  · rw [leaf_count, htree, List.length_map, leaf_count]

theorem activate_leaf_consistent (s : TreeState) (f : FoundNode)
    (hcons : counters_consistent s)
    (hmem : f ∈ find_learning_nodes s.tree_root) (hact : f.2.isInactiveLeaf = true) :
    counters_consistent (activate_leaf s f.2 f.1)
    ∧ leaf_count (activate_leaf s f.2 f.1).tree_root = leaf_count s.tree_root := by
  have hmem2 : ((f.1, f.2) : FoundNode) ∈ find_learning_nodes s.tree_root := by
    simpa using hmem
  have hnodup := paths_nodup_root s.tree_root
  have htree : find_learning_nodes (activate_leaf s f.2 f.1).tree_root
      = (find_learning_nodes s.tree_root).map
          (upd f.1 (Node.leaf true f.2.statsOf f.2.depthOf)) := by
    rw [activate_leaf_def]
    exact replace_found_root s.tree_root f.1 _ ⟨f.2, hmem2⟩ rfl
  obtain ⟨ha, hi⟩ := hcons
  rw [active_leaf_count] at ha
  rw [inactive_leaf_count] at hi
  have hinact : f.2.isActiveLeaf = false := by
    cases hn : f.2 with
    | leaf a st d => rw [hn] at hact; cases a <;> simp_all [Node.isActiveLeaf,
        Node.isInactiveLeaf]
    | split d cs => rw [hn] at hact; simp [Node.isInactiveLeaf] at hact
  have hca := countP_upd_ft (find_learning_nodes s.tree_root) f.1 f.2
    (Node.leaf true f.2.statsOf f.2.depthOf) (fun g => g.2.isActiveLeaf) hmem2 hnodup
    hinact rfl
  have hci := countP_upd_tf (find_learning_nodes s.tree_root) f.1 f.2
    (Node.leaf true f.2.statsOf f.2.depthOf) (fun g => g.2.isInactiveLeaf) hmem2 hnodup
    hact rfl
  have hfa : (activate_leaf s f.2 f.1).n_active_leaves = s.n_active_leaves + 1 := by
    rw [activate_leaf_def]
  have hfi : (activate_leaf s f.2 f.1).n_inactive_leaves
      = s.n_inactive_leaves - 1 := by
    rw [activate_leaf_def]
  refine ⟨⟨?_, ?_⟩, ?_⟩
  · rw [hfa, active_leaf_count, htree]
    omega
  · rw [hfi, inactive_leaf_count, htree]
    omega
  · rw [leaf_count, htree, List.length_map, leaf_count]

end River

namespace River

theorem apply_toggle_invariant (s : TreeState) (t : LeafToggle)
    (hcons : counters_consistent s) (hv : valid_toggle s t) :
    counters_consistent (apply_toggle s t)
    ∧ leaf_count (apply_toggle s t).tree_root = leaf_count s.tree_root := by
  cases t with
  | deactivate f => exact deactivate_leaf_consistent s f hcons hv.1 hv.2
  | activate f => exact activate_leaf_consistent s f hcons hv.1 hv.2

theorem apply_toggles_invariant (ts : List LeafToggle) (s : TreeState)
    (hcons : counters_consistent s) (hv : valid_toggles s ts) :
    counters_consistent (apply_toggles s ts)
    ∧ leaf_count (apply_toggles s ts).tree_root = leaf_count s.tree_root := by
  induction ts generalizing s with
  | nil => exact ⟨hcons, rfl⟩
  | cons t rest ih =>
      cases hv with
      | cons _ _ _ hvt hvrest =>
          obtain ⟨hc1, hl1⟩ := apply_toggle_invariant s t hcons hvt
          obtain ⟨hc2, hl2⟩ := ih (apply_toggle s t) hc1 hvrest
          exact ⟨hc2, hl2.trans hl1⟩

theorem valid_toggles_append_left (s : TreeState) (ts1 ts2 : List LeafToggle)
    (hv : valid_toggles s (ts1 ++ ts2)) : valid_toggles s ts1 := by
  induction ts1 generalizing s with
  | nil => exact valid_toggles.nil s
  | cons t rest ih =>
      cases hv with
      | cons _ _ _ hvt hvrest =>
          exact valid_toggles.cons s t rest hvt (ih (apply_toggle s t) hvrest)

/-- Claim C5: along any finite sequence of valid `_deactivate_leaf` /
`_activate_leaf` transitions started from a state whose counters describe its
tree, the sum `n_active_leaves + n_inactive_leaves` is unchanged by every
transition — after any prefix it equals the total leaf count of the original
tree — and neither counter ever goes negative. -/
theorem toggles_preserve_leaf_count_sum (s : TreeState) (ts1 ts2 : List LeafToggle)
    (hcons : counters_consistent s) (hv : valid_toggles s (ts1 ++ ts2)) :
    (apply_toggles s ts1).n_active_leaves + (apply_toggles s ts1).n_inactive_leaves
        = (leaf_count s.tree_root : ℤ)
    ∧ 0 ≤ (apply_toggles s ts1).n_active_leaves
    ∧ 0 ≤ (apply_toggles s ts1).n_inactive_leaves := by
  obtain ⟨⟨ha, hi⟩, hl⟩ := apply_toggles_invariant ts1 s hcons
    (valid_toggles_append_left s ts1 ts2 hv)
  refine ⟨?_, ?_, ?_⟩
  · rw [ha, hi, ← hl]
    have := active_add_inactive (apply_toggles s ts1).tree_root
    omega
  · rw [ha]; exact Int.natCast_nonneg _
  · rw [hi]; exact Int.natCast_nonneg _

theorem toggles_preserve_leaf_count_sum_witness :
    counters_consistent lone_leaf_state
    ∧ valid_toggles lone_leaf_state
        [LeafToggle.deactivate ([], Node.leaf true 0 0),
         LeafToggle.activate ([], Node.leaf false 0 0)]
    ∧ ((apply_toggles lone_leaf_state
          [LeafToggle.deactivate ([], Node.leaf true 0 0)]).n_active_leaves
        + (apply_toggles lone_leaf_state
          [LeafToggle.deactivate ([], Node.leaf true 0 0)]).n_inactive_leaves
        = (leaf_count lone_leaf_state.tree_root : ℤ)
       ∧ 0 ≤ (apply_toggles lone_leaf_state
          [LeafToggle.deactivate ([], Node.leaf true 0 0)]).n_active_leaves
       ∧ 0 ≤ (apply_toggles lone_leaf_state
          [LeafToggle.deactivate ([], Node.leaf true 0 0)]).n_inactive_leaves) := by
  have hcons : counters_consistent lone_leaf_state := ⟨rfl, rfl⟩
  have hm1 : (([], Node.leaf true 0 0) : FoundNode)
      ∈ find_learning_nodes lone_leaf_state.tree_root := by
    simp [lone_leaf_state, find_learning_nodes, find_learning_nodes_from]
  have hm2 : (([], Node.leaf false 0 0) : FoundNode)
      ∈ find_learning_nodes
          (apply_toggle lone_leaf_state
            (LeafToggle.deactivate ([], Node.leaf true 0 0))).tree_root := by
    simp [lone_leaf_state, apply_toggle, deactivate_leaf, new_learning_node,
      Node.withDepth, Node.statsOf, Node.depthOf, replace_root,
      find_learning_nodes, find_learning_nodes_from]
  have hv : valid_toggles lone_leaf_state
      [LeafToggle.deactivate ([], Node.leaf true 0 0),
       LeafToggle.activate ([], Node.leaf false 0 0)] := by
    refine valid_toggles.cons _ _ _ ⟨hm1, rfl⟩ ?_
    refine valid_toggles.cons _ _ _ ⟨hm2, rfl⟩ ?_
    exact valid_toggles.nil _
  exact ⟨hcons, hv,
    toggles_preserve_leaf_count_sum lone_leaf_state
      [LeafToggle.deactivate ([], Node.leaf true 0 0)]
      [LeafToggle.activate ([], Node.leaf false 0 0)] hcons hv⟩

end River

namespace River

/-- Claim C1 (code evaluation): `_deactivate_all_leaves` is a no-op on every
engine state. Its loop guard tests `isinstance(cur_node, ActiveLeaf)` where
`cur_node` is the `FoundNode` wrapper produced by `_find_learning_nodes`, not
the wrapped node, so the guard never fires and no leaf is deactivated —
contradicting the claim (and the method's own docstring) that every active
leaf is replaced by an inactive one. -/
theorem deactivate_all_leaves_noop (s : TreeState) : deactivate_all_leaves s = s := by
  rw [deactivate_all_leaves]
  generalize find_learning_nodes s.tree_root = l
  induction l with
  | nil => rfl
  | cons f rest ih =>
      rw [deactivate_all_leaves_loop,
        if_neg (by simp [found_node_is_active_leaf_instance])]
      exact ih

/-- Claim C2 (code evaluation): on `two_leaf_state` (two active leaves, active
per-leaf estimate 1, inactive estimate 0, overhead 1) the size that
`_enforce_size_limit` compares against the budget is `1` — the bare per-leaf
active estimate — while the symmetric linear-model size the claim describes is
`2 = n_active_leaves × active_estimate`; line 218 omits the
`_n_active_leaves` factor that both the scan five lines below and
`_estimate_model_size` line 266 apply. -/
theorem tree_size_check_omits_active_count :
    tree_size_check two_leaf_state = 1
    ∧ spec_tree_size two_leaf_state = 2
    ∧ tree_size_check two_leaf_state ≠ spec_tree_size two_leaf_state := by
  refine ⟨?_, ?_, ?_⟩ <;> norm_num [tree_size_check, spec_tree_size, two_leaf_state]

/-- Claim C8: when `stop_mem_management` is set and either an inactive leaf
exists or the estimated tree size exceeds the byte budget,
`_enforce_size_limit` sets `_growth_allowed` to `false` and returns with
everything else unchanged: same tree (hence no activation-mode change and no
node replacement) and the same three node counters. -/
theorem enforce_size_limit_stop_branch (s : TreeState)
    (hstop : s.stop_mem_management = true)
    (hcond : 0 < s.n_inactive_leaves ∨ s.max_byte_size < tree_size_check s) :
    enforce_size_limit s = { s with growth_allowed := false }
    ∧ (enforce_size_limit s).growth_allowed = false
    ∧ (enforce_size_limit s).tree_root = s.tree_root
    ∧ (enforce_size_limit s).n_active_leaves = s.n_active_leaves
    ∧ (enforce_size_limit s).n_inactive_leaves = s.n_inactive_leaves
    ∧ (enforce_size_limit s).n_decision_nodes = s.n_decision_nodes := by
  have h := enforce_size_limit_stop_early s hstop hcond
  rw [h]
  exact ⟨rfl, rfl, rfl, rfl, rfl, rfl⟩

theorem enforce_size_limit_stop_branch_witness :
    inactive_leaf_state.stop_mem_management = true
    ∧ (0 < inactive_leaf_state.n_inactive_leaves
        ∨ inactive_leaf_state.max_byte_size < tree_size_check inactive_leaf_state)
    ∧ enforce_size_limit inactive_leaf_state
        = { inactive_leaf_state with growth_allowed := false } :=
  ⟨rfl, Or.inl (by norm_num [inactive_leaf_state]),
    (enforce_size_limit_stop_branch inactive_leaf_state rfl
      (Or.inl (by norm_num [inactive_leaf_state]))).1⟩

theorem enforce_size_limit_active_leaves_le_max_active_witness :
    lone_leaf_state.stop_mem_management = false
    ∧ active_leaf_count (enforce_size_limit lone_leaf_state).tree_root
        ≤ max_active_scan (leaf_count lone_leaf_state.tree_root)
            lone_leaf_state.active_leaf_size_estimate
            lone_leaf_state.inactive_leaf_size_estimate
            lone_leaf_state.size_estimate_overhead_fraction
            lone_leaf_state.max_byte_size :=
  ⟨rfl, enforce_size_limit_active_leaves_le_max_active lone_leaf_state rfl⟩

end River

namespace River

/-- Claim C10: the overhead-fraction assignment in `_estimate_model_size`
divides the measured model size by the linear estimate with no zero-divisor
guard, so (in any state whose counters can only be zero when the matching
measured total is zero, as in every consistent tree) the call completes
exactly when that linear estimate — taken at the freshly updated per-leaf
estimates — is nonzero; with both estimates still at their initial `0.0` and
no measured leaves the call dies with a `ZeroDivisionError`. -/
theorem estimate_model_size_completes_iff (measure : Node → ℚ) (self_size : ℚ)
    (s : TreeState)
    (hA : 0 < (size_totals measure (find_learning_nodes s.tree_root) (0, 0)).1 →
      (s.n_active_leaves : ℚ) ≠ 0)
    (hI : 0 < (size_totals measure (find_learning_nodes s.tree_root) (0, 0)).2 →
      (s.n_inactive_leaves : ℚ) ≠ 0) :
    (estimate_model_size measure self_size s).isSome
      ↔ estimated_model_size s
          (if 0 < (size_totals measure (find_learning_nodes s.tree_root) (0, 0)).1
           then (size_totals measure (find_learning_nodes s.tree_root) (0, 0)).1
                / (s.n_active_leaves : ℚ)
           else s.active_leaf_size_estimate)
          (if 0 < (size_totals measure (find_learning_nodes s.tree_root) (0, 0)).2
           then (size_totals measure (find_learning_nodes s.tree_root) (0, 0)).2
                / (s.n_inactive_leaves : ℚ)
           else s.inactive_leaf_size_estimate) ≠ 0 := by
  rw [estimate_model_size]
  set totals := size_totals measure (find_learning_nodes s.tree_root) (0, 0) with htot
  have ha : updated_estimate totals.1 s.n_active_leaves s.active_leaf_size_estimate
      = some (if 0 < totals.1 then totals.1 / (s.n_active_leaves : ℚ)
              else s.active_leaf_size_estimate) := by
    rw [updated_estimate]
    by_cases h : 0 < totals.1
    · rw [if_pos h, if_pos h, checked_div, if_neg (hA h)]
    · rw [if_neg h, if_neg h]
  have hi : updated_estimate totals.2 s.n_inactive_leaves s.inactive_leaf_size_estimate
      = some (if 0 < totals.2 then totals.2 / (s.n_inactive_leaves : ℚ)
              else s.inactive_leaf_size_estimate) := by
    rw [updated_estimate]
    by_cases h : 0 < totals.2
    · rw [if_pos h, if_pos h, checked_div, if_neg (hI h)]
    · rw [if_neg h, if_neg h]
  rw [ha, hi]
  simp only [Option.some_bind]
  rw [checked_div]
  by_cases hest : ((s.n_active_leaves : ℚ)
        * (if 0 < totals.1 then totals.1 / (s.n_active_leaves : ℚ)
           else s.active_leaf_size_estimate)
      + (s.n_inactive_leaves : ℚ)
        * (if 0 < totals.2 then totals.2 / (s.n_inactive_leaves : ℚ)
           else s.inactive_leaf_size_estimate)) = 0
  · rw [if_pos hest]
    simp only [Option.none_bind, Option.isSome_none]
    constructor
    · intro h; simp at h
    · intro h; exact absurd hest h
  · rw [if_neg hest]
    simp only [Option.some_bind, Option.isSome_some]
    constructor
    · intro _; exact hest
    · intro _; simp

theorem estimate_model_size_completes_iff_witness :
    ((0 : ℚ) < (size_totals (fun _ => 0)
        (find_learning_nodes empty_state.tree_root) (0, 0)).1 →
      (empty_state.n_active_leaves : ℚ) ≠ 0)
    ∧ ((0 : ℚ) < (size_totals (fun _ => 0)
        (find_learning_nodes empty_state.tree_root) (0, 0)).2 →
      (empty_state.n_inactive_leaves : ℚ) ≠ 0)
    ∧ ((estimate_model_size (fun _ => 0) 0 empty_state).isSome
        ↔ estimated_model_size empty_state
            (if 0 < (size_totals (fun _ => 0)
                (find_learning_nodes empty_state.tree_root) (0, 0)).1
             then (size_totals (fun _ => 0)
                (find_learning_nodes empty_state.tree_root) (0, 0)).1
                  / (empty_state.n_active_leaves : ℚ)
             else empty_state.active_leaf_size_estimate)
            (if 0 < (size_totals (fun _ => 0)
                (find_learning_nodes empty_state.tree_root) (0, 0)).2
             then (size_totals (fun _ => 0)
                (find_learning_nodes empty_state.tree_root) (0, 0)).2
                  / (empty_state.n_inactive_leaves : ℚ)
             else empty_state.inactive_leaf_size_estimate) ≠ 0) :=
  ⟨fun h => absurd h (by norm_num [empty_state, find_learning_nodes, size_totals]),
   fun h => absurd h (by norm_num [empty_state, find_learning_nodes, size_totals]),
   estimate_model_size_completes_iff (fun _ => 0) 0 empty_state
     (fun h => absurd h (by norm_num [empty_state, find_learning_nodes, size_totals]))
     (fun h => absurd h (by norm_num [empty_state, find_learning_nodes, size_totals]))⟩

end River

namespace River

/-- Claim C3 counterexample: at `confidence = 1` — outside the open interval
`(0,1)` — with the valid sample count `n = 1` and `range_val = 1`, the bound
returns `0` instead of failing: `ln(1/1) = 0` is in `log`'s domain and the
radicand `0` is in `sqrt`'s domain, so no error is raised. -/
theorem hoeffding_bound_at_confidence_one : hoeffding_bound 1 1 1 = some 0 := by
  rw [hoeffding_bound, checked_div, if_neg (by norm_num)]
  simp only [Option.some_bind]
  rw [checked_log, if_pos (by norm_num)]
  simp only [Option.some_bind]
  rw [checked_div, if_neg (by norm_num)]
  simp only [Option.some_bind]
  rw [checked_sqrt, if_pos (by norm_num [Real.log_one])]
  norm_num [Real.log_one, Real.sqrt_zero]

/-- Claim C3 (amended): `_hoeffding_bound` has no domain validation of its
own; it fails exactly when one of the underlying `math` operations has a
domain error — `confidence ≤ 0` (reciprocal/logarithm), `n = 0` (division by
zero), or a negative radicand `(range_val²·ln(1/confidence))/(2n)` (square
root). In particular it does fail for `n ≤ 0` or `confidence ∉ (0,1)` in the
generic case, but returns a value in the degenerate cases the original claim
also covers, such as `confidence = 1` (radicand `0`), `range_val = 0` with
`n < 0`, or sign cancellation when `confidence > 1` and `n < 0`. -/
theorem hoeffding_bound_none_iff (range_val confidence n : ℝ) :
    hoeffding_bound range_val confidence n = none
      ↔ confidence ≤ 0 ∨ n = 0
        ∨ (range_val * range_val * Real.log (1 / confidence)) / (2 * n) < 0 := by
  rw [hoeffding_bound]
  by_cases hc0 : confidence = 0
  · rw [checked_div, if_pos hc0]
    simp only [Option.none_bind]
    exact iff_of_true (by simp) (Or.inl (le_of_eq hc0))
  · rw [checked_div, if_neg hc0]
    simp only [Option.some_bind]
    rw [checked_log]
    by_cases hpos : 0 < 1 / confidence
    · rw [if_pos hpos]
      simp only [Option.some_bind]
      have hcpos : 0 < confidence := by
        by_contra hle
        push_neg at hle
        have : 1 / confidence ≤ 0 := by
          apply div_nonpos_of_nonneg_of_nonpos (by norm_num)
          exact hle
        linarith
      rw [checked_div]
      by_cases hn : 2 * n = 0
      · rw [if_pos hn]
        simp only [Option.none_bind]
        refine iff_of_true (by simp) (Or.inr (Or.inl ?_))
        rcases mul_eq_zero.mp hn with h2 | h2
        · norm_num at h2
        · exact h2
      · rw [if_neg hn]
        simp only [Option.some_bind]
        rw [checked_sqrt]
        by_cases hq : 0 ≤ (range_val * range_val * Real.log (1 / confidence)) / (2 * n)
        · rw [if_pos hq]
          refine iff_of_false (by simp) ?_
          push_neg
          refine ⟨by linarith, ?_, by linarith⟩
          intro hn0
          exact hn (by rw [hn0, mul_zero])
        · rw [if_neg hq]
          exact iff_of_true (by simp) (Or.inr (Or.inr (lt_of_not_le hq)))
    · rw [if_neg hpos]
      simp only [Option.none_bind]
      refine iff_of_true (by simp) (Or.inl ?_)
      by_contra hgt
      push_neg at hgt
      exact hpos (by positivity)

/-- Claim C7: on the valid domain — a positive bounded range, confidence
strictly inside `(0,1)`, a positive integer sample count — the Hoeffding
bound returns the closed-form value `sqrt((R²·ln(1/δ))/(2n))`, which is
strictly positive, strictly decreasing in `n`, and strictly increasing in
`range_val`. -/
theorem hoeffding_bound_strict_mono_pos (r r2 c : ℝ) (n m : ℕ)
    (hr : 0 < r) (hrr : r < r2) (hc0 : 0 < c) (hc1 : c < 1)
    (hn : 0 < n) (hnm : n < m) :
    hoeffding_bound r c (n : ℝ) = some (hoeffding_val r c (n : ℝ))
    ∧ 0 < hoeffding_val r c (n : ℝ)
    ∧ hoeffding_val r c (m : ℝ) < hoeffding_val r c (n : ℝ)
    ∧ hoeffding_val r c (n : ℝ) < hoeffding_val r2 c (n : ℝ) := by
  have hL : 0 < Real.log (1 / c) := Real.log_pos (by rw [lt_div_iff hc0]; linarith)
  have hnR : (0 : ℝ) < (n : ℝ) := by exact_mod_cast hn
  have hmR : (n : ℝ) < (m : ℝ) := by exact_mod_cast hnm
  have hrad : ∀ x : ℝ, 0 < x →
      0 < (r * r * Real.log (1 / c)) / (2 * x) := by
    intro x hx
    apply div_pos (by positivity) (by linarith)
  constructor
  · rw [hoeffding_bound, checked_div, if_neg (ne_of_gt hc0)]
    simp only [Option.some_bind]
    rw [checked_log, if_pos (by positivity)]
    simp only [Option.some_bind]
    rw [checked_div, if_neg (by positivity)]
    simp only [Option.some_bind]
    rw [checked_sqrt, if_pos (le_of_lt (hrad (n : ℝ) hnR))]
    rw [hoeffding_val]
  refine ⟨?_, ?_, ?_⟩
  · rw [hoeffding_val]
    exact Real.sqrt_pos.mpr (hrad (n : ℝ) hnR)
  · rw [hoeffding_val, hoeffding_val]
    apply Real.sqrt_lt_sqrt (le_of_lt (hrad (m : ℝ) (by linarith)))
    apply div_lt_div_of_pos_left (by positivity) (by linarith) (by linarith)
  · rw [hoeffding_val, hoeffding_val]
    apply Real.sqrt_lt_sqrt (le_of_lt (hrad (n : ℝ) hnR))
    refine (div_lt_div_right (by positivity)).mpr ?_
    exact mul_lt_mul_of_pos_right (mul_self_lt_mul_self (le_of_lt hr) hrr) hL

end River

namespace River

theorem hoeffding_bound_strict_mono_pos_witness :
    ((0 : ℝ) < 1 ∧ (1 : ℝ) < 2 ∧ (0 : ℝ) < 1/2 ∧ (1/2 : ℝ) < 1
      ∧ (0 : ℕ) < 1 ∧ (1 : ℕ) < 2)
    ∧ (hoeffding_bound 1 (1/2) ((1 : ℕ) : ℝ)
          = some (hoeffding_val 1 (1/2) ((1 : ℕ) : ℝ))
       ∧ 0 < hoeffding_val 1 (1/2) ((1 : ℕ) : ℝ)
       ∧ hoeffding_val 1 (1/2) ((2 : ℕ) : ℝ) < hoeffding_val 1 (1/2) ((1 : ℕ) : ℝ)
       ∧ hoeffding_val 1 (1/2) ((1 : ℕ) : ℝ) < hoeffding_val 2 (1/2) ((1 : ℕ) : ℝ)) :=
  ⟨⟨by norm_num, by norm_num, by norm_num, by norm_num, by norm_num, by norm_num⟩,
   hoeffding_bound_strict_mono_pos 1 2 (1/2) 1 2 (by norm_num) (by norm_num)
     (by norm_num) (by norm_num) (by norm_num) (by norm_num)⟩

end River
